import Mathlib

/-!
Verification development for the obsidian-regex-replace plugin
(source: src/main.ts).  Strings are modelled as `List Char`; the
JavaScript string primitives used by the source (`String.prototype.replace`
with a global literal-text regex and a string replacement argument,
`String.prototype.split`, `String.prototype.indexOf`) are embedded as
executable Lean functions below.  Recursions that consume a
caller-supplied pattern length use an explicit fuel argument initialised
to the string length, so that every definition reduces by `rfl`/`decide`;
the fuel is always sufficient, mirroring the terminating JS loops.
-/

/-- The set of characters matched by the JavaScript regex class `\s`
(restricted to the characters that can actually occur here: lines never
contain `\n`, and the remaining exotic Unicode space characters are not
exercised by any claim).  -/
def wsChar (c : Char) : Bool :=
  c == ' ' || c == '\t' || c == '\n' || c == '\r' || c == '\x0b' || c == '\x0c' || c == ' '

/-- The characters matched by the JavaScript regex class `[ \t]`. -/
def spaceTab (c : Char) : Bool :=
  c == ' ' || c == '\t'

/-- GetSubstitution from the ECMAScript spec, specialised to a regex with
zero capture groups and no named groups (which is the case for every
internal `.replace` call of the source: `/\$\$/g`, `` /\$`/g ``, `/\$'/g`,
`/\$&/g`, `new RegExp('\\$'+n,'g')` and the placeholder-restore pattern
contain no groups).  `matched` is the matched text, `pre`/`post` are the
portions of the subject string before/after the match.  With zero capture
groups, `$digit` sequences are passed through literally. -/
def expandRepl (repl : List Char) (matched pre post : List Char) : List Char :=
  match repl with
  | [] => []
  | c :: rest =>
    if c == '$' then
      match rest with
      | [] => ['$']
      | d :: rest' =>
        if d == '$' then '$' :: expandRepl rest' matched pre post
        else if d == '&' then matched ++ expandRepl rest' matched pre post
        else if d == '`' then pre ++ expandRepl rest' matched pre post
        else if d == '\'' then post ++ expandRepl rest' matched pre post
        else '$' :: d :: expandRepl rest' matched pre post
    else c :: expandRepl rest matched pre post

/-- Worker for `replaceAllJS`: walks the subject string keeping the
already-consumed prefix `pre` (needed because GetSubstitution's `` $` ``
and `$'` refer to the whole subject string).  `fuel` is initialised to the
subject length and decreases by at least one each step. -/
def replJSAux (pat repl : List Char) : Nat → List Char → List Char → List Char
  | 0, _, s => s
  | _ + 1, _, [] => []
  | fuel + 1, pre, c :: rest =>
    if pat.isPrefixOf (c :: rest) then
      expandRepl repl pat pre ((c :: rest).drop pat.length) ++
        replJSAux pat repl fuel (pre ++ pat) ((c :: rest).drop pat.length)
    else
      c :: replJSAux pat repl fuel (pre ++ [c]) rest

/-- `s.replace(/pat/g, repl)` for a non-empty literal pattern `pat`:
left-to-right, non-overlapping, each occurrence replaced by the
GetSubstitution expansion of `repl`.  (The source never calls `.replace`
with an empty literal pattern.) -/
def replaceAllJS (s pat repl : List Char) : List Char :=
  if pat.isEmpty then s else replJSAux pat repl s.length [] s

/-- `text.split('\n')` — single-character separator split. -/
def splitNl : List Char → List (List Char)
  | [] => [[]]
  | c :: rest =>
    if c == '\n' then [] :: splitNl rest
    else
      match splitNl rest with
      | h :: t => (c :: h) :: t
      | [] => [[c]]

/-- Worker for `splitJS` (fuel-based, fuel initialised to the subject
length). -/
def splitJSAux (sep : List Char) : Nat → List Char → List Char → List (List Char)
  | 0, cur, s => [cur ++ s]
  | _ + 1, cur, [] => [cur]
  | fuel + 1, cur, c :: rest =>
    if sep.isPrefixOf (c :: rest) then
      cur :: splitJSAux sep fuel [] ((c :: rest).drop sep.length)
    else
      splitJSAux sep fuel (cur ++ [c]) rest

/-- `s.split(sep)` for JavaScript strings: empty separator splits into
single characters, otherwise literal non-overlapping split. -/
def splitJS (s sep : List Char) : List (List Char) :=
  if sep.isEmpty then s.map (fun c => [c]) else splitJSAux sep s.length [] s

/-- `pieces.join(sep)`. -/
def joinJS (sep : List Char) : List (List Char) → List Char
  | [] => []
  | [x] => x
  | x :: xs => x ++ sep ++ joinJS sep xs

/-- `s.indexOf(sep)` returning `none` for `-1`. -/
def indexOfJS (s sep : List Char) : Option Nat :=
  if sep.isPrefixOf s then some 0
  else
    match s with
    | [] => none
    | _ :: rest => (indexOfJS rest sep).map (· + 1)

/-- `String.prototype.trim` over the modelled `\s` class. -/
def trimJS (s : List Char) : List Char :=
  ((s.dropWhile wsChar).reverse.dropWhile wsChar).reverse

/-! ## Substitution engine (src/main.ts lines 115-143)

Per-match replacement computation of `generateMatchPreviews`: protect
`$$` behind a private placeholder, then substitute `` $` ``, `$'`, `$&`,
the capture groups `$n` in descending order, and finally restore the
placeholder to a literal `$`.  `m0` is `match[0]`, `groups` holds
`match[1..]` (`none` for a non-participating group), `pre`/`post` are the
line text before/after the match. -/

/-- The private placeholder `'\x00DOLLAR\x00'`. -/
def dollarPlaceholder : List Char := ['\x00', 'D', 'O', 'L', 'L', 'A', 'R', '\x00']

/-- The loop `for (let n = match.length - 1; n >= 1; n--)`:
replace `$n` by `match[n] !== undefined ? match[n] : ''`, descending. -/
def groupLoop (groups : List (Option (List Char))) : Nat → List Char → List Char
  | 0, acc => acc
  | n + 1, acc =>
    let groupValue := ((groups[n]?).getD none).getD []
    groupLoop groups n (replaceAllJS acc ('$' :: (Nat.repr (n + 1)).toList) groupValue)

/-- The full per-match replacement text computation (lines 115-143). -/
def computeReplacement (replaceString m0 : List Char) (groups : List (Option (List Char)))
    (pre post : List Char) : List Char :=
  let r1 := replaceAllJS replaceString ['$', '$'] dollarPlaceholder
  let r2 := replaceAllJS r1 ['$', '`'] pre
  let r3 := replaceAllJS r2 ['$', '\''] post
  let r4 := replaceAllJS r3 ['$', '&'] m0
  let r5 := groupLoop groups groups.length r4
  replaceAllJS r5 dollarPlaceholder ['$']

/-! ## Match scanner / preview generator (src/main.ts lines 82-197)

`generateMatchPreviews` branches on `useRegEx`.  The JavaScript `RegExp`
engine is external: in regex mode its observable behaviour is supplied as
an oracle `Option RegexEngine` — `none` models a pattern whose
compilation throws (the `catch` branch, lines 165-168), a `some` engine
supplies the whole-text match count (`text.match(searchRegex)`) and the
per-line `exec` match sequences.  The `caseInsensitive` and
`multilineMatch` flags only select regex compilation flags and are
absorbed into the oracle.  Plain-text mode (lines 169-194) is fully
concrete. -/

structure MatchPreview where
  lineNumber : Nat
  lineContent : List Char
  matchedText : List Char
  replacementText : List Char
  matchIndex : Nat
  lineAfterReplace : List Char
  matchStartInLine : Nat
  matchEndInLine : Nat
  isMultiLine : Bool
deriving DecidableEq

/-- One result of `lineRegex.exec(line)`: match position, matched text,
and the capture groups (`none` = `undefined`). -/
structure LineMatch where
  index : Nat
  matched : List Char
  groups : List (Option (List Char))
deriving DecidableEq

/-- Oracle for a successfully compiled `RegExp`: `allMatchCount` is
`text.match(searchRegex)` (`none` for `null`), `lineExec line` is the
finite sequence of matches produced by the `lineRegex.exec` loop on one
line. -/
structure RegexEngine where
  allMatchCount : Option Nat
  lineExec : List Char → List LineMatch

/-- The inner `while ((match = lineRegex.exec(line)) !== null)` loop body
(lines 110-163), bounded by the remaining preview budget.  Returns the
previews produced from one line together with the next matchIndex. -/
def regexLineLoop (replaceString line : List Char) (lineNumber : Nat) :
    List LineMatch → Nat → Nat → List MatchPreview × Nat
  | [], _, mi => ([], mi)
  | _ :: _, 0, mi => ([], mi)
  | m :: ms, budget + 1, mi =>
    let pre := line.take m.index
    let post := line.drop (m.index + m.matched.length)
    let replacementText := computeReplacement replaceString m.matched m.groups pre post
    let p : MatchPreview :=
      { lineNumber := lineNumber
        lineContent := line
        matchedText := m.matched
        replacementText := replacementText
        matchIndex := mi
        lineAfterReplace := pre ++ replacementText ++ post
        matchStartInLine := m.index
        matchEndInLine := m.index + m.matched.length
        isMultiLine := m.matched.contains '\n' }
    let r := regexLineLoop replaceString line lineNumber ms budget (mi + 1)
    (p :: r.1, r.2)

/-- The per-line loop of the regex branch (lines 105-164). -/
def regexLinesLoop (replaceString : List Char) (eng : RegexEngine) :
    List (List Char) → Nat → Nat → Nat → List MatchPreview
  | [], _, _, _ => []
  | _ :: _, 0, _, _ => []
  | line :: rest, budget + 1, i, mi =>
    let r := regexLineLoop replaceString line (i + 1) (eng.lineExec line) (budget + 1) mi
    r.1 ++ regexLinesLoop replaceString eng rest (budget + 1 - r.1.length) (i + 1) r.2

/-- The per-line loop of the plain-text branch (lines 173-193): at most
one preview per line, at the first `indexOf` occurrence. -/
def plainLinesLoop (searchString replaceString : List Char) :
    List (List Char) → Nat → Nat → Nat → List MatchPreview
  | [], _, _, _ => []
  | _ :: _, 0, _, _ => []
  | line :: rest, budget + 1, i, mi =>
    match indexOfJS line searchString with
    | some matchStart =>
      { lineNumber := i + 1
        lineContent := line
        matchedText := searchString
        replacementText := replaceString
        matchIndex := mi
        lineAfterReplace := joinJS replaceString (splitJS line searchString)
        matchStartInLine := matchStart
        matchEndInLine := matchStart + searchString.length
        isMultiLine := searchString.contains '\n'
        : MatchPreview } :: plainLinesLoop searchString replaceString rest budget (i + 1) (mi + 1)
    | none => plainLinesLoop searchString replaceString rest (budget + 1) (i + 1) mi

/-- `generateMatchPreviews` (lines 82-197). -/
def generateMatchPreviews (text searchString replaceString : List Char) (useRegEx : Bool)
    (compiled : Option RegexEngine) (limit : Nat) : List MatchPreview × Nat :=
  let lines := splitNl text
  if useRegEx then
    match compiled with
    | none => ([], 0)
    | some eng =>
      let totalCount := match eng.allMatchCount with | some n => n | none => 0
      (regexLinesLoop replaceString eng lines limit 0 0, totalCount)
  else
    let totalCount := (splitJS text searchString).length - 1
    (plainLinesLoop searchString replaceString lines limit 0 0, totalCount)

/-! ## Replacement executor (src/main.ts lines 847-956)

`performReplacement` of the modal.  The editor collaborator is external:
the model records the single write (if any) in `wrote`.  Document scope
and selection scope run the same logic on the respective scope text
(`editor.getValue()` / `editor.getSelection()`, written back via one
`setValue` / `replaceSelection`); the model takes the scope text as
`scopeText`.  In regex mode the external `RegExp` behaviour is an oracle:
`rmatch` is `scopeText.match(searchRegex)` reduced to its length (`none`
for `null`) and `rreplaced` is `scopeText.replace(searchRegex,
replaceString)`.  The returned `none` models the early `return` on an
empty find string. -/

structure ExecResult where
  wrote : Option (List Char)
  resultIsNoMatch : Bool
  reportedHits : Nat
  savedFindText : List Char
  savedReplaceText : List Char
  historySaved : Option (List Char × List Char)
deriving DecidableEq

/-- Escape preprocessing as performed inline in `performReplacement`
(lines 860-889) and in `updatePreview` (lines 689-696): expand literal
`\n` / `\t` in a working copy, gated by the two settings flags. -/
def escapeExpand (processLineBreak processTab : Bool) (s : List Char) : List Char :=
  let s1 := if processLineBreak then replaceAllJS s ['\\', 'n'] ['\n'] else s
  if processTab then replaceAllJS s1 ['\\', 't'] ['\t'] else s1

/-- `performReplacement` (lines 847-956), for one scope. -/
def performReplacement (processLineBreak processTab useRegEx : Bool)
    (rawFind rawReplace scopeText : List Char)
    (rmatch : Option Nat) (rreplaced : List Char) : Option ExecResult :=
  if rawFind.isEmpty then none
  else
    let searchString := escapeExpand processLineBreak processTab rawFind
    let replaceString := escapeExpand processLineBreak processTab rawReplace
    if useRegEx then
      match rmatch with
      | some n =>
        some { wrote := some rreplaced
               resultIsNoMatch := false
               reportedHits := n
               savedFindText := searchString
               savedReplaceText := replaceString
               historySaved := some (searchString, rawReplace) }
      | none =>
        some { wrote := none
               resultIsNoMatch := true
               reportedHits := 0
               savedFindText := searchString
               savedReplaceText := replaceString
               historySaved := none }
    else
      let pieces := splitJS scopeText searchString
      some { wrote := some (joinJS replaceString pieces)
             resultIsNoMatch := false
             reportedHits := pieces.length - 1
             savedFindText := searchString
             savedReplaceText := replaceString
             historySaved := some (searchString, rawReplace) }

/-! ## Pattern history store (src/main.ts lines 15-25, 288-335) -/

structure RegexPattern where
  id : String
  name : String
  findText : String
  replaceText : String
  useRegEx : Bool
  caseInsensitive : Bool
  isPinned : Bool
  lastUsed : Nat
  useCount : Nat
deriving DecidableEq

/-- The `findIndex` predicate of `savePattern` (lines 296-301). -/
def patternKeyMatches (findText replaceText : String) (useRegEx caseInsensitive : Bool)
    (p : RegexPattern) : Bool :=
  p.findText == findText && p.replaceText == replaceText &&
    p.useRegEx == useRegEx && p.caseInsensitive == caseInsensitive

/-- `generatePatternName` (lines 288-292). -/
def generatePatternName (findText : String) : String :=
  if findText.length ≤ 30 then findText
  else ⟨findText.toList.take 30⟩ ++ "..."

/-- Stable insert for descending `lastUsed` order. -/
def insertDesc (p : RegexPattern) : List RegexPattern → List RegexPattern
  | [] => [p]
  | q :: qs => if q.lastUsed ≤ p.lastUsed then p :: q :: qs else q :: insertDesc p qs

/-- `unpinned.sort((a, b) => b.lastUsed - a.lastUsed)` (line 332):
JavaScript `Array.prototype.sort` is stable, so it is modelled by a
stable insertion sort by `lastUsed` descending. -/
def sortByLastUsedDesc : List RegexPattern → List RegexPattern
  | [] => []
  | p :: ps => insertDesc p (sortByLastUsedDesc ps)

/-- `pruneHistory` (lines 327-335), acting on the saved-patterns list. -/
def pruneHistory (maxHistorySize : Nat) (patterns : List RegexPattern) : List RegexPattern :=
  let pinned := patterns.filter (·.isPinned)
  let unpinned := patterns.filter (fun p => !p.isPinned)
  if maxHistorySize < unpinned.length then
    pinned ++ (sortByLastUsedDesc unpinned).take maxHistorySize
  else patterns

/-- `savePattern` (lines 294-325), acting on the saved-patterns list.
`now` is `Date.now()`, `freshId` the generated random id. -/
def savePattern (patterns : List RegexPattern) (maxHistorySize : Nat) (now : Nat)
    (freshId : String) (findText replaceText : String) (useRegEx caseInsensitive : Bool) :
    List RegexPattern :=
  match patterns.findIdx? (patternKeyMatches findText replaceText useRegEx caseInsensitive) with
  | some i =>
    match patterns[i]? with
    | some p => { p with lastUsed := now, useCount := p.useCount + 1 } :: patterns.eraseIdx i
    | none => patterns
  | none =>
    pruneHistory maxHistorySize
      ({ id := freshId
         name := generatePatternName findText
         findText := findText
         replaceText := replaceText
         useRegEx := useRegEx
         caseInsensitive := caseInsensitive
         isPinned := false
         lastUsed := now
         useCount := 1 } :: patterns)

/-- A compiled regex whose whole-text match is `null` and whose per-line
`exec` loop finds nothing — the oracle of any genuinely non-matching
valid pattern. -/
def noMatchEngine : RegexEngine := ⟨none, fun _ => []⟩

/-- Descending-recency order used by the history pruning sort. -/
def recencyGE (a b : RegexPattern) : Prop := b.lastUsed ≤ a.lastUsed

/-! ## Markdown formatting normalizer (src/main.ts lines 199-283)

`fixMarkdownFormatting` splits into lines, runs a fence-aware
line-rewriting pass (five ordered regex rules), then a second fence-aware
pass trimming trailing whitespace, and joins with `'\n'`.  Each JS regex
rule is embedded as a direct parser with the regex's backtracking
behaviour worked out (leading `\s{0,3}` / `\s*` runs, greedy `#` runs
with the forced-backtrack cases, `[ \t]*` followed by `\S`, etc.). -/

structure FixStat where
  key : String
  count : Nat
deriving DecidableEq

/-- The `inc` closure (lines 201-204): bump the first stat with the key,
else push a new one at the end. -/
def incStat : List FixStat → String → Nat → List FixStat
  | [], key, by_ => [⟨key, by_⟩]
  | s :: rest, key, by_ =>
    if s.key == key then { s with count := s.count + by_ } :: rest
    else s :: incStat rest key by_

/-- ``line.match(/^\s*(```+|~~~+)/)`` (lines 211, 266) reduced to the
fence kind: `some '`'` for a line opening with three-or-more backticks
after optional whitespace, `some '~'` for tildes, else `none`. -/
def fenceMatch (line : List Char) : Option Char :=
  let r := line.dropWhile wsChar
  if 3 ≤ (r.takeWhile (· == '`')).length then some '`'
  else if 3 ≤ (r.takeWhile (· == '~')).length then some '~'
  else none

/-- The shared fence-state transition (lines 212-218 / 267-271): entering
remembers the fence kind, a fence line of the same kind closes, a fence
line of the other kind inside an open fence is ignored. -/
def fenceUpdate (inFence : Bool) (fenceMarker : Option Char) (c : Char) :
    Bool × Option Char :=
  if !inFence then (true, some c)
  else if some c = fenceMarker then (false, none)
  else (inFence, fenceMarker)

/-- Rule 1 (lines 223-227), regex `^(\s{0,3})(#{1,6})\s+#{1,6}\s+(.+)$`
with replacement `` `${p1}${p2} ${String(p3).trim()}` ``.  Returns the
rewritten line when the regex matches (the rule also counts), else
`none`.  The second `\s+` normally takes the whole whitespace run; when
nothing follows it backtracks by one character so that `(.+)` can match a
single whitespace character. -/
def dupHeadRule (line : List Char) : Option (List Char) :=
  let p1 := line.takeWhile wsChar
  let r1 := line.dropWhile wsChar
  let h1 := r1.takeWhile (· == '#')
  let r2 := r1.dropWhile (· == '#')
  let w2 := r2.takeWhile wsChar
  let r3 := r2.dropWhile wsChar
  let h2 := r3.takeWhile (· == '#')
  let r4 := r3.dropWhile (· == '#')
  let w3 := r4.takeWhile wsChar
  let r5 := r4.dropWhile wsChar
  if p1.length ≤ 3 && 1 ≤ h1.length && h1.length ≤ 6 && 1 ≤ w2.length &&
      1 ≤ h2.length && h2.length ≤ 6 && 1 ≤ w3.length then
    if !r5.isEmpty then some (p1 ++ h1 ++ ' ' :: trimJS r5)
    else if 2 ≤ w3.length then some (p1 ++ h1 ++ ' ' :: trimJS (w3.drop (w3.length - 1)))
    else none
  else none

/-- Rule 2 (lines 229-233), regex `^(\s*)(#{7,})\s+(\S.*)$` with
replacement `` `${p1}###### ${p3}` ``. -/
def capHeadRule (line : List Char) : Option (List Char) :=
  let p1 := line.takeWhile wsChar
  let r1 := line.dropWhile wsChar
  let h := r1.takeWhile (· == '#')
  let r2 := r1.dropWhile (· == '#')
  let w := r2.takeWhile wsChar
  let r3 := r2.dropWhile wsChar
  if 7 ≤ h.length && 1 ≤ w.length && !r3.isEmpty then
    some (p1 ++ ('#' :: '#' :: '#' :: '#' :: '#' :: '#' :: ' ' :: r3))
  else none

/-- Rule 3 (lines 235-240), regex `^(\s{0,3})(#{1,6})[ \t]*(\S.*)$` with
replacement `` `${p1}${p2} ${p3}` ``, counting only when the line
changes.  Backtracking cases of the greedy `#{1,6}`: with seven-or-more
hashes it keeps six and `(\S.*)` starts at the seventh hash; with at most
six hashes it keeps the whole run when a non-whitespace character follows
the `[ \t]` run, and otherwise gives one hash back (possible only when
the run has at least two) so that `(\S.*)` starts at the returned hash.
Returns `(rewritten line, counted?)`. -/
def normHeadRule (line : List Char) : Option (List Char × Bool) :=
  let p1 := line.takeWhile wsChar
  let r1 := line.dropWhile wsChar
  let h := r1.takeWhile (· == '#')
  let r2 := r1.dropWhile (· == '#')
  if p1.length ≤ 3 && 1 ≤ h.length then
    if 7 ≤ h.length then
      let desired := p1 ++ h.take 6 ++ ' ' :: (h.drop 6 ++ r2)
      some (desired, desired ≠ line)
    else
      let r3 := r2.dropWhile spaceTab
      if (match r3 with | c :: _ => !wsChar c | [] => false) then
        let desired := p1 ++ h ++ ' ' :: r3
        some (desired, desired ≠ line)
      else if 2 ≤ h.length then
        let desired := p1 ++ h.take (h.length - 1) ++ ' ' :: '#' :: r2
        some (desired, desired ≠ line)
      else none
  else none

/-- Rule 4 (lines 242-247), regex `^(\s*)([-+*])[ \t]*(\S)` with
replacement `` `${p1}${p2} ${p3}` `` — the match is an unanchored prefix,
the remainder of the line is untouched.  Returns `(rewritten line,
counted?)`. -/
def listBulletRule (line : List Char) : Option (List Char × Bool) :=
  let p1 := line.takeWhile wsChar
  let r1 := line.dropWhile wsChar
  match r1 with
  | b :: r2 =>
    if b == '-' || b == '+' || b == '*' then
      let t := r2.takeWhile spaceTab
      let r3 := r2.dropWhile spaceTab
      match r3 with
      | c :: rest =>
        if !wsChar c then
          some (p1 ++ b :: ' ' :: c :: rest, t ≠ [' '])
        else none
      | [] => none
    else none
  | [] => none

/-- Rule 5 (lines 249-254), regex `^(\s*)(\d+\.)[ \t]*(\S)` with
replacement `` `${p1}${p2} ${p3}` ``, analogous to rule 4. -/
def listOrderedRule (line : List Char) : Option (List Char × Bool) :=
  let p1 := line.takeWhile wsChar
  let r1 := line.dropWhile wsChar
  let d := r1.takeWhile Char.isDigit
  let r2 := r1.dropWhile Char.isDigit
  if 1 ≤ d.length then
    match r2 with
    | '.' :: r3 =>
      let t := r3.takeWhile spaceTab
      let r4 := r3.dropWhile spaceTab
      match r4 with
      | c :: rest =>
        if !wsChar c then
          some (p1 ++ d ++ '.' :: ' ' :: c :: rest, t ≠ [' '])
        else none
      | [] => none
    | _ => none
  else none

/-- The five ordered rules applied to one non-fence line outside a fence
(lines 221-258), each operating on the output of the previous.  Returns
the rewritten line and the list of stat keys incremented, in order. -/
def applyRules (line : List Char) : List Char × List String :=
  let r1 : List Char × List String := match dupHeadRule line with
    | some nl => (nl, ["heading_duplicate_hashes"])
    | none => (line, [])
  let r2 : List Char × List String := match capHeadRule r1.1 with
    | some nl => (nl, ["heading_cap_to_h6"])
    | none => (r1.1, [])
  let r3 : List Char × List String := match normHeadRule r2.1 with
    | some nl => (nl.1, if nl.2 then ["heading_space_normalize"] else [])
    | none => (r2.1, [])
  let r4 : List Char × List String := match listBulletRule r3.1 with
    | some nl => (nl.1, if nl.2 then ["list_bullet_space"] else [])
    | none => (r3.1, [])
  let r5 : List Char × List String := match listOrderedRule r4.1 with
    | some nl => (nl.1, if nl.2 then ["list_ordered_space"] else [])
    | none => (r4.1, [])
  (r5.1, r1.2 ++ r2.2 ++ r3.2 ++ r4.2 ++ r5.2)

/-- One iteration of the first pass's loop body (lines 209-259), as a
state transformer: state = (inFence, fenceMarker, stats), output = the
rewritten line. -/
def pass1Step (st : Bool × Option Char × List FixStat) (line : List Char) :
    (Bool × Option Char × List FixStat) × List Char :=
  match fenceMatch line with
  | some c =>
    let fu := fenceUpdate st.1 st.2.1 c
    ((fu.1, fu.2, st.2.2), line)
  | none =>
    if st.1 then (st, line)
    else
      let ar := applyRules line
      ((st.1, st.2.1, ar.2.foldl (fun acc k => incStat acc k 1) st.2.2), ar.1)

/-- The first pass over all lines. -/
def pass1 (st : Bool × Option Char × List FixStat) :
    List (List Char) → List (List Char) × List FixStat
  | [] => ([], st.2.2)
  | line :: rest =>
    let step := pass1Step st line
    let r := pass1 step.1 rest
    (step.2 :: r.1, r.2)

/-- `line.replace(/[ \t]+$/, '')` (line 274). -/
def trimTrailing (line : List Char) : List Char :=
  (line.reverse.dropWhile spaceTab).reverse

/-- `line.endsWith('  ') && !line.endsWith('   ')` (line 273): the
hard-line-break exception of the trailing-whitespace pass. -/
def endsWithTwoSpaces (line : List Char) : Bool :=
  match line.reverse with
  | ' ' :: ' ' :: rest => match rest with
    | ' ' :: _ => false
    | _ => true
  | _ => false

/-- The second (fence-aware) pass (lines 261-279): trailing-whitespace
trimming with the exactly-two-spaces exception.  Note the fence state is
updated before the skip test, so an opening fence line is skipped but a
closing fence line is processed.  Returns the rewritten lines and the
number of trimmed lines. -/
def pass2 (inFence : Bool) (fenceMarker : Option Char) (acc : Nat) :
    List (List Char) → List (List Char) × Nat
  | [] => ([], acc)
  | line :: rest =>
    let fu := match fenceMatch line with
      | some c => fenceUpdate inFence fenceMarker c
      | none => (inFence, fenceMarker)
    if fu.1 then
      let r := pass2 fu.1 fu.2 acc rest
      (line :: r.1, r.2)
    else if endsWithTwoSpaces line then
      let r := pass2 fu.1 fu.2 acc rest
      (line :: r.1, r.2)
    else
      let trimmed := trimTrailing line
      if trimmed ≠ line then
        let r := pass2 fu.1 fu.2 (acc + 1) rest
        (trimmed :: r.1, r.2)
      else
        let r := pass2 fu.1 fu.2 acc rest
        (line :: r.1, r.2)

/-- `fixMarkdownFormatting` (lines 199-283). -/
def fixMarkdownFormatting (text : List Char) : List Char × List FixStat :=
  let lines := splitNl text
  let p1 := pass1 (false, none, []) lines
  let p2 := pass2 false none 0 p1.1
  let stats := if 0 < p2.2 then incStat p1.2 "trim_trailing_whitespace" p2.2
    else p1.2
  (joinJS ['\n'] p2.1, stats)

/-! ## Generic lemmas about the string machinery -/

theorem takeWhile_append_all {p : Char → Bool} {xs : List Char} (ys : List Char)
    (h : ∀ x ∈ xs, p x = true) :
    List.takeWhile p (xs ++ ys) = xs ++ List.takeWhile p ys := by
  induction xs with
  | nil => simp
  | cons c cs ih =>
    simp only [List.cons_append, List.takeWhile_cons, h c (by simp), if_true]
    simp only [List.cons_append, List.cons.injEq, true_and]
    exact ih (fun x hx => h x (by simp [hx]))

theorem dropWhile_append_all {p : Char → Bool} {xs : List Char} (ys : List Char)
    (h : ∀ x ∈ xs, p x = true) :
    List.dropWhile p (xs ++ ys) = List.dropWhile p ys := by
  induction xs with
  | nil => simp
  | cons c cs ih =>
    simp only [List.cons_append, List.dropWhile_cons, h c (by simp), if_true]
    exact ih (fun x hx => h x (by simp [hx]))

theorem takeWhile_cons_neg (p : Char → Bool) (c : Char) (l : List Char) (h : p c = false) :
    List.takeWhile p (c :: l) = [] := by
  simp [List.takeWhile_cons, h]

theorem dropWhile_cons_neg (p : Char → Bool) (c : Char) (l : List Char) (h : p c = false) :
    List.dropWhile p (c :: l) = c :: l := by
  simp [List.dropWhile_cons, h]

theorem expandRepl_no_dollar (repl : List Char) (matched pre post : List Char)
    (h : '$' ∉ repl) : expandRepl repl matched pre post = repl := by
  induction repl with
  | nil => rfl
  | cons c rest ih =>
    have hc : (c == '$') = false := by
      cases hcc : c == '$' with
      | false => rfl
      | true =>
        have : c = '$' := beq_iff_eq.mp hcc
        exact absurd (by simp [this]) h
    have hrest : '$' ∉ rest := fun hr => h (by simp [hr])
    unfold expandRepl
    rw [hc]
    simp only [Bool.false_eq_true, if_false]
    rw [ih hrest]

theorem replJSAux_no_char {c0 : Char} {pat : List Char} (repl : List Char)
    (hc : c0 ∈ pat) :
    ∀ (fuel : Nat) (pre s : List Char), c0 ∉ s → replJSAux pat repl fuel pre s = s := by
  intro fuel
  induction fuel with
  | zero => intro pre s _; rfl
  | succ f ih =>
    intro pre s hs
    match s with
    | [] => rfl
    | c :: rest =>
      have hnp : pat.isPrefixOf (c :: rest) = false := by
        cases hp : pat.isPrefixOf (c :: rest) with
        | false => rfl
        | true => exact absurd ((List.isPrefixOf_iff_prefix.mp hp).subset hc) hs
      unfold replJSAux
      rw [hnp]
      simp only [Bool.false_eq_true, if_false]
      have : c0 ∉ rest := fun h => hs (by simp [h])
      rw [ih (pre ++ [c]) rest this]

theorem replaceAllJS_no_char {c0 : Char} {pat s : List Char} (repl : List Char)
    (hc : c0 ∈ pat) (hs : c0 ∉ s) : replaceAllJS s pat repl = s := by
  unfold replaceAllJS
  cases pat with
  | nil => simp at hc
  | cons p ps =>
    simp only [List.isEmpty_cons, Bool.false_eq_true, if_false]
    exact replJSAux_no_char repl hc s.length [] s hs

theorem groupLoop_no_dollar (groups : List (Option (List Char))) :
    ∀ (n : Nat) (acc : List Char), '$' ∉ acc → groupLoop groups n acc = acc := by
  intro n
  induction n with
  | zero => intro acc _; rfl
  | succ m ih =>
    intro acc hacc
    show groupLoop groups m
      (replaceAllJS acc ('$' :: (Nat.repr (m + 1)).toList) (((groups[m]?).getD none).getD [])) = acc
    rw [replaceAllJS_no_char _ (by simp) hacc]
    exact ih acc hacc

/-! ## Substitution-engine facts used by the claim theorems -/

theorem computeReplacement_dollar_dollar (m0 : List Char) (groups : List (Option (List Char)))
    (pre post : List Char) : computeReplacement ['$', '$'] m0 groups pre post = ['$'] := by
  show replaceAllJS
    (groupLoop groups groups.length
      (replaceAllJS
        (replaceAllJS
          (replaceAllJS (replaceAllJS ['$', '$'] ['$', '$'] dollarPlaceholder) ['$', '`'] pre)
          ['$', '\''] post)
        ['$', '&'] m0))
    dollarPlaceholder ['$'] = ['$']
  rw [show replaceAllJS ['$', '$'] ['$', '$'] dollarPlaceholder = dollarPlaceholder from rfl]
  rw [replaceAllJS_no_char pre (show '$' ∈ ['$', '`'] by simp)
    (show '$' ∉ dollarPlaceholder by decide)]
  rw [replaceAllJS_no_char post (show '$' ∈ ['$', '\''] by simp)
    (show '$' ∉ dollarPlaceholder by decide)]
  rw [replaceAllJS_no_char m0 (show '$' ∈ ['$', '&'] by simp)
    (show '$' ∉ dollarPlaceholder by decide)]
  rw [groupLoop_no_dollar groups groups.length dollarPlaceholder (by decide)]
  rfl

theorem computeReplacement_amp (m0 : List Char) (groups : List (Option (List Char)))
    (pre post : List Char) (hd : '$' ∉ m0) (hx : '\x00' ∉ m0) :
    computeReplacement ['$', '&'] m0 groups pre post = m0 := by
  show replaceAllJS
    (groupLoop groups groups.length
      (replaceAllJS
        (replaceAllJS
          (replaceAllJS (replaceAllJS ['$', '&'] ['$', '$'] dollarPlaceholder) ['$', '`'] pre)
          ['$', '\''] post)
        ['$', '&'] m0))
    dollarPlaceholder ['$'] = m0
  rw [show replaceAllJS ['$', '&'] ['$', '$'] dollarPlaceholder = ['$', '&'] from rfl]
  rw [show replaceAllJS ['$', '&'] ['$', '`'] pre = ['$', '&'] from rfl]
  rw [show replaceAllJS ['$', '&'] ['$', '\''] post = ['$', '&'] from rfl]
  rw [show replaceAllJS ['$', '&'] ['$', '&'] m0 = expandRepl m0 ['$', '&'] [] [] ++ [] from rfl]
  rw [List.append_nil, expandRepl_no_dollar m0 ['$', '&'] [] [] hd]
  rw [groupLoop_no_dollar groups groups.length m0 hd]
  exact replaceAllJS_no_char ['$'] (show '\x00' ∈ dollarPlaceholder by decide) hx

/-! ## Claim C2 -/

/-- C2, counterexample: with a one-group pattern (`match.length = 2`),
the template `$2` — whose index exceeds the number of groups present —
is left as the literal token `$2` by the substitution loop (the loop of
line 137 only runs for `n = 1`), not resolved to the empty string as the
claim states.  Concrete scenario: pattern `(a)` matched on line `a`,
`match = ["a", "a"]`, template `$2`. -/
theorem substitution_group_index_overflow_literal :
    computeReplacement ['$', '2'] ['a'] [some ['a']] [] [] = ['$', '2'] ∧
      (['$', '2'] : List Char) ≠ [] := by
  constructor
  · decide
  · decide

/-- C2, amended: a `$n` token whose capture group exists in the pattern
but did not participate in the match resolves to the empty string (shown
for the template `$1` with one non-participating group), while a `$n`
token whose index exceeds the number of groups in the pattern is left as
the literal token (shown for the template `$2` with a one-group
pattern). -/
theorem substitution_group_tokens :
    (∀ (m0 pre post : List Char), computeReplacement ['$', '1'] m0 [none] pre post = []) ∧
      (∀ (m0 pre post : List Char) (g : Option (List Char)),
        computeReplacement ['$', '2'] m0 [g] pre post = ['$', '2']) :=
  ⟨fun _ _ _ => rfl, fun _ _ _ _ => rfl⟩

/-! ## Claim C4 -/

/-- C4, counterexample: substituting the template `$&` alone does not
always reproduce the matched substring, and text inserted by an earlier
resolution step is re-scanned by later steps.  First conjunct: for the
JavaScript regex `/(b)?\$1/` matched on the line `$1` we have
`match[0] = "$1"` with group 1 not participating; the `$&` step inserts
`$1`, which the later group step rewrites to the empty string — the
result is `""`, not the matched text `"$1"`.  Second conjunct: for the
regex `/(X)/` matched on the line `$1X`, the text `$1` inserted by the
`` $` `` step is rewritten by the later group step to `X`, not left as
the inserted text `$1`. -/
theorem substitution_amp_not_roundtrip :
    (computeReplacement ['$', '&'] ['$', '1'] [none] [] [] = [] ∧
      ([] : List Char) ≠ ['$', '1']) ∧
    (computeReplacement ['$', '`'] ['X'] [some ['X']] ['$', '1'] [] = ['X'] ∧
      (['X'] : List Char) ≠ ['$', '1']) := by
  refine ⟨⟨?_, ?_⟩, ⟨?_, ?_⟩⟩ <;> decide

/-- C4, amended: substituting the template `$$` yields exactly one
literal `$` for every match; substituting the template `$&` alone
reproduces the matched substring provided the matched text contains
neither a `$` character nor the placeholder byte `\x00` (without that
proviso the round-trip fails, and text inserted by an earlier resolution
step can be re-scanned and rewritten by later steps). -/
theorem substitution_dollar_tokens :
    (∀ (m0 : List Char) (groups : List (Option (List Char))) (pre post : List Char),
      computeReplacement ['$', '$'] m0 groups pre post = ['$']) ∧
    (∀ (m0 : List Char) (groups : List (Option (List Char))) (pre post : List Char),
      '$' ∉ m0 → '\x00' ∉ m0 → computeReplacement ['$', '&'] m0 groups pre post = m0) :=
  ⟨computeReplacement_dollar_dollar, computeReplacement_amp⟩

/-- C4, witness: the amended theorem applied at the matched text `abc`
(which contains no `$` and no `\x00`). -/
theorem substitution_dollar_tokens_witness :
    ('$' ∉ ['a', 'b', 'c'] ∧ '\x00' ∉ (['a', 'b', 'c'] : List Char)) ∧
      computeReplacement ['$', '&'] ['a', 'b', 'c'] [some ['x'], none] ['p'] ['q'] =
        ['a', 'b', 'c'] :=
  ⟨⟨by decide, by decide⟩,
    substitution_dollar_tokens.2 ['a', 'b', 'c'] [some ['x'], none] ['p'] ['q']
      (by decide) (by decide)⟩

/-! ## Split lemmas for the executor claims -/

theorem splitJSAux_ne_nil (sep : List Char) :
    ∀ (fuel : Nat) (cur s : List Char), splitJSAux sep fuel cur s ≠ [] := by
  intro fuel
  induction fuel with
  | zero => intro cur s; simp [splitJSAux]
  | succ f ih =>
    intro cur s
    match s with
    | [] => simp [splitJSAux]
    | c :: rest =>
      unfold splitJSAux
      cases sep.isPrefixOf (c :: rest) with
      | true => simp
      | false =>
        simp only [Bool.false_eq_true, if_false]
        exact ih (cur ++ [c]) rest

theorem splitJSAux_singleton (sep : List Char) :
    ∀ (fuel : Nat) (cur s x : List Char), splitJSAux sep fuel cur s = [x] → x = cur ++ s := by
  intro fuel
  induction fuel with
  | zero =>
    intro cur s x h
    simpa [splitJSAux] using h.symm
  | succ f ih =>
    intro cur s x h
    match s with
    | [] => simpa [splitJSAux] using h.symm
    | c :: rest =>
      unfold splitJSAux at h
      cases hp : sep.isPrefixOf (c :: rest) with
      | true =>
        rw [hp] at h
        simp only [if_true, List.cons.injEq] at h
        exact (splitJSAux_ne_nil sep f [] ((c :: rest).drop sep.length) h.2).elim
      | false =>
        rw [hp] at h
        simp only [Bool.false_eq_true, if_false] at h
        rw [ih (cur ++ [c]) rest x h]
        simp

theorem splitJS_singleton {s sep x : List Char} (h : splitJS s sep = [x]) : x = s := by
  unfold splitJS at h
  cases he : sep.isEmpty with
  | true =>
    rw [he] at h
    simp only [if_true] at h
    match s, h with
    | [c], h => simp only [List.map_cons, List.map_nil, List.cons.injEq] at h; exact h.1.symm
  | false =>
    rw [he] at h
    simp only [Bool.false_eq_true, if_false] at h
    simpa using splitJSAux_singleton sep s.length [] s x h

/-! ## Claim C1 -/

/-- C1, counterexample: in plain-text mode the executor writes the scope
text back to the editor even when the find string has no occurrence.
With scope text `abc` and find string `x` (zero occurrences, zero
reported hits) the model records a `setValue` write of `abc` — the claim
states that no write happens. -/
theorem executor_plain_no_match_writes_back :
    performReplacement false false false ['x'] ['y'] ['a', 'b', 'c'] none [] =
      some { wrote := some ['a', 'b', 'c']
             resultIsNoMatch := false
             reportedHits := 0
             savedFindText := ['x']
             savedReplaceText := ['y']
             historySaved := some (['x'], ['y']) } ∧
      (splitJS ['a', 'b', 'c'] ['x']).length - 1 = 0 := by
  constructor
  · decide
  · decide

/-- C1, amended: for a non-matching pattern the executor reports zero and
leaves the scope text unchanged, but only in regex mode does it skip the
editor write; in plain-text mode it performs the write, writing back a
string equal to the original scope text (`split`/`join` on a separator
with no occurrence returns the original).  Regex mode is characterised by
the match oracle returning `null`, plain-text mode by the split producing
a single piece. -/
theorem executor_no_match_behavior (processLineBreak processTab : Bool)
    (rawFind rawReplace scopeText rreplaced : List Char) :
    (rawFind.isEmpty = false →
      performReplacement processLineBreak processTab true rawFind rawReplace scopeText
          none rreplaced =
        some { wrote := none
               resultIsNoMatch := true
               reportedHits := 0
               savedFindText := escapeExpand processLineBreak processTab rawFind
               savedReplaceText := escapeExpand processLineBreak processTab rawReplace
               historySaved := none }) ∧
    (rawFind.isEmpty = false →
      (splitJS scopeText (escapeExpand processLineBreak processTab rawFind)).length = 1 →
      performReplacement processLineBreak processTab false rawFind rawReplace scopeText
          none rreplaced =
        some { wrote := some scopeText
               resultIsNoMatch := false
               reportedHits := 0
               savedFindText := escapeExpand processLineBreak processTab rawFind
               savedReplaceText := escapeExpand processLineBreak processTab rawReplace
               historySaved :=
                 some (escapeExpand processLineBreak processTab rawFind, rawReplace) }) := by
  constructor
  · intro hne
    simp [performReplacement, hne]
  · intro hne hsingle
    have hpieces : ∃ x, splitJS scopeText (escapeExpand processLineBreak processTab rawFind) = [x] := by
      match hp : splitJS scopeText (escapeExpand processLineBreak processTab rawFind), hsingle with
      | [x], _ => exact ⟨x, rfl⟩
      | y :: z :: rest, hs => simp at hs
      | [], hs => simp at hs
    obtain ⟨x, hx⟩ := hpieces
    have hxs : x = scopeText := splitJS_singleton hx
    simp only [performReplacement, hne, Bool.false_eq_true, if_false, if_true, hx, hxs]
    rfl

/-- C1, witness: the amended theorem applied with find string `x`, scope
text `abc` and both escape flags off. -/
theorem executor_no_match_behavior_witness :
    (['x'] : List Char).isEmpty = false ∧
      (splitJS ['a', 'b', 'c'] (escapeExpand false false ['x'])).length = 1 ∧
      performReplacement false false false ['x'] ['y'] ['a', 'b', 'c'] none [] =
        some { wrote := some ['a', 'b', 'c']
               resultIsNoMatch := false
               reportedHits := 0
               savedFindText := escapeExpand false false ['x']
               savedReplaceText := escapeExpand false false ['y']
               historySaved := some (escapeExpand false false ['x'], ['y']) } :=
  ⟨by decide, by decide,
    (executor_no_match_behavior false false ['x'] ['y'] ['a', 'b', 'c'] []).2
      (by decide) (by decide)⟩

/-! ## Claim C3 -/

/-- C3, counterexample: with `processLineBreak` enabled and the raw find
text `a\nb` (backslash-n, four characters), a successful regex
replacement records the escape-expanded find text (with a real line
break) both in the settings and in the pattern history — the claim
states that the history and settings receive the raw user-entered
texts. -/
theorem executor_history_gets_expanded_find :
    performReplacement true false true ['a', '\\', 'n', 'b'] ['r'] ['T'] (some 1) ['U'] =
      some { wrote := some ['U']
             resultIsNoMatch := false
             reportedHits := 1
             savedFindText := ['a', '\n', 'b']
             savedReplaceText := ['r']
             historySaved := some (['a', '\n', 'b'], ['r']) } ∧
      (['a', '\n', 'b'] : List Char) ≠ ['a', '\\', 'n', 'b'] := by
  constructor
  · decide
  · decide

/-- C3, amended: escape expansion is applied to the working copies used
for matching and substitution, but the texts stored back into settings
are the escape-expanded find and replace strings, and the pattern
history receives the escape-expanded find string together with the raw
replace string (only the replace side of the history keeps the raw
text). -/
theorem executor_saved_texts (processLineBreak processTab useRegEx : Bool)
    (rawFind rawReplace scopeText : List Char) (rmatch : Option Nat) (rreplaced : List Char)
    (res : ExecResult)
    (h : performReplacement processLineBreak processTab useRegEx rawFind rawReplace scopeText
        rmatch rreplaced = some res) :
    res.savedFindText = escapeExpand processLineBreak processTab rawFind ∧
      res.savedReplaceText = escapeExpand processLineBreak processTab rawReplace ∧
      ∀ histFind histReplace, res.historySaved = some (histFind, histReplace) →
        histFind = escapeExpand processLineBreak processTab rawFind ∧
          histReplace = rawReplace := by
  unfold performReplacement at h
  cases hne : rawFind.isEmpty with
  | true => rw [hne] at h; simp at h
  | false =>
    rw [hne] at h
    simp only [Bool.false_eq_true, if_false] at h
    cases useRegEx with
    | true =>
      simp only [if_true] at h
      cases rmatch with
      | some n =>
        injection h with h
        subst h
        refine ⟨rfl, rfl, ?_⟩
        intro hf hr hsome
        injection hsome with hsome
        exact ⟨congrArg Prod.fst hsome.symm, congrArg Prod.snd hsome.symm⟩
      | none =>
        injection h with h
        subst h
        refine ⟨rfl, rfl, ?_⟩
        intro hf hr hsome
        simp at hsome
    | false =>
      simp only [Bool.false_eq_true, if_false] at h
      injection h with h
      subst h
      refine ⟨rfl, rfl, ?_⟩
      intro hf hr hsome
      injection hsome with hsome
      exact ⟨congrArg Prod.fst hsome.symm, congrArg Prod.snd hsome.symm⟩

/-- C3, witness: the amended theorem applied to the counterexample run
(`processLineBreak` on, raw find `a\nb`, raw replace `r`). -/
theorem executor_saved_texts_witness :
    performReplacement true false true ['a', '\\', 'n', 'b'] ['r'] ['T'] (some 1) ['U'] =
      some { wrote := some ['U']
             resultIsNoMatch := false
             reportedHits := 1
             savedFindText := ['a', '\n', 'b']
             savedReplaceText := ['r']
             historySaved := some (['a', '\n', 'b'], ['r']) } ∧
    ({ wrote := some ['U']
       resultIsNoMatch := false
       reportedHits := 1
       savedFindText := ['a', '\n', 'b']
       savedReplaceText := ['r']
       historySaved := some (['a', '\n', 'b'], ['r']) : ExecResult }).savedFindText =
      escapeExpand true false ['a', '\\', 'n', 'b'] :=
  ⟨by decide,
    (executor_saved_texts true false true ['a', '\\', 'n', 'b'] ['r'] ['T'] (some 1) ['U']
      _ (by decide)).1⟩

/-! ## Claim C5 -/

theorem regexLinesLoop_noMatch (replaceString : List Char) :
    ∀ (lines : List (List Char)) (budget i mi : Nat),
      regexLinesLoop replaceString noMatchEngine lines budget i mi = [] := by
  intro lines
  induction lines with
  | nil => intro budget i mi; cases budget <;> rfl
  | cons line rest ih =>
    intro budget i mi
    cases budget with
    | zero => rfl
    | succ b =>
      show (regexLineLoop replaceString line (i + 1) (noMatchEngine.lineExec line) (b + 1) mi).1
          ++ regexLinesLoop replaceString noMatchEngine rest _ (i + 1) _ = []
      rw [show noMatchEngine.lineExec line = [] from rfl]
      rw [show regexLineLoop replaceString line (i + 1) [] (b + 1) mi = ([], mi) from rfl]
      simpa using ih _ (i + 1) _

/-- C5, counterexample: the scanner's invalid-pattern outcome is not
reported distinctly from the no-match outcome — the two invocations
return identical values.  Left side: the find string `(` fails to
compile (compilation oracle `none`, the `catch` branch).  Right side:
the valid find string `zzz` compiles but has no match in `abc`
(whole-text match `null`, per-line `exec` finds nothing).  Both return
the empty preview list with total count `0`. -/
theorem scanner_invalid_indistinct_from_no_match :
    generateMatchPreviews ['a', 'b', 'c'] ['('] ['x'] true none 5 =
      generateMatchPreviews ['a', 'b', 'c'] ['z', 'z', 'z'] ['x'] true (some noMatchEngine) 5 := by
  show ([], 0) = (regexLinesLoop ['x'] noMatchEngine (splitNl ['a', 'b', 'c']) 5 0 0,
    match noMatchEngine.allMatchCount with | some n => n | none => 0)
  rw [regexLinesLoop_noMatch ['x'] (splitNl ['a', 'b', 'c']) 5 0 0]
  rfl

/-- C5, amended: when the find string fails to compile as a regular
expression the match scanner does not raise an unhandled fault — it
returns the empty match list with a total count of zero — but this
outcome is not distinguishable from the no-match outcome in the
scanner's returned value (a non-matching valid pattern produces the
identical result); only a console error log distinguishes the two. -/
theorem scanner_invalid_pattern_result :
    (∀ (text searchString replaceString : List Char) (limit : Nat),
      generateMatchPreviews text searchString replaceString true none limit = ([], 0)) ∧
    (∀ (text searchString replaceString : List Char) (limit : Nat),
      generateMatchPreviews text searchString replaceString true (some noMatchEngine) limit =
        ([], 0)) := by
  constructor
  · intro text s r limit
    rfl
  · intro text s r limit
    show (regexLinesLoop r noMatchEngine (splitNl text) limit 0 0,
      match noMatchEngine.allMatchCount with | some n => n | none => 0) = ([], 0)
    rw [regexLinesLoop_noMatch r (splitNl text) limit 0 0]
    rfl

/-! ## Claim C6 -/

theorem indexOfJS_spec :
    ∀ (s sep : List Char) (n : Nat), indexOfJS s sep = some n →
      sep.isPrefixOf (s.drop n) = true ∧ ∀ m < n, sep.isPrefixOf (s.drop m) = false := by
  intro s
  induction s with
  | nil =>
    intro sep n h
    unfold indexOfJS at h
    cases hp : sep.isPrefixOf ([] : List Char) with
    | true =>
      rw [hp] at h
      simp only [if_true, Option.some.injEq] at h
      subst h
      exact ⟨hp, fun m hm => absurd hm (Nat.not_lt_zero m)⟩
    | false => rw [hp] at h; simp at h
  | cons c rest ih =>
    intro sep n h
    unfold indexOfJS at h
    cases hp : sep.isPrefixOf (c :: rest) with
    | true =>
      rw [hp] at h
      simp only [if_true, Option.some.injEq] at h
      subst h
      exact ⟨hp, fun m hm => absurd hm (Nat.not_lt_zero m)⟩
    | false =>
      rw [hp] at h
      simp only [Bool.false_eq_true, if_false] at h
      match hrec : indexOfJS rest sep, h with
      | some k, h =>
        simp only [hrec, Option.map_some', Option.some.injEq] at h
        subst h
        obtain ⟨h1, h2⟩ := ih sep k hrec
        refine ⟨h1, ?_⟩
        intro m hm
        match m with
        | 0 => simpa using hp
        | m' + 1 =>
          have : m' < k := Nat.lt_of_succ_lt_succ hm
          simpa using h2 m' this
      | none, h => simp [hrec] at h

theorem plainLinesLoop_spec (search repl : List Char) :
    ∀ (lines : List (List Char)) (budget i mi : Nat),
      (∀ p ∈ plainLinesLoop search repl lines budget i mi,
          i < p.lineNumber ∧
          lines[p.lineNumber - (i + 1)]? = some p.lineContent ∧
          indexOfJS p.lineContent search = some p.matchStartInLine ∧
          p.matchEndInLine = p.matchStartInLine + search.length ∧
          p.matchedText = search) ∧
      ((plainLinesLoop search repl lines budget i mi).map (·.lineNumber)).Pairwise (· < ·) := by
  intro lines
  induction lines with
  | nil =>
    intro budget i mi
    cases budget <;> exact ⟨fun p hp => absurd hp (by simp [plainLinesLoop]), by simp [plainLinesLoop]⟩
  | cons line rest ih =>
    intro budget i mi
    cases budget with
    | zero => exact ⟨fun p hp => absurd hp (by simp [plainLinesLoop]), by simp [plainLinesLoop]⟩
    | succ b =>
      cases hidx : indexOfJS line search with
      | some st =>
        have hloop : plainLinesLoop search repl (line :: rest) (b + 1) i mi =
            { lineNumber := i + 1
              lineContent := line
              matchedText := search
              replacementText := repl
              matchIndex := mi
              lineAfterReplace := joinJS repl (splitJS line search)
              matchStartInLine := st
              matchEndInLine := st + search.length
              isMultiLine := search.contains '\n'
              : MatchPreview } :: plainLinesLoop search repl rest b (i + 1) (mi + 1) := by
          conv_lhs => unfold plainLinesLoop; rw [hidx]
        rw [hloop]
        obtain ⟨ihmem, ihpw⟩ := ih b (i + 1) (mi + 1)
        constructor
        · intro p hp
          cases hp with
          | head =>
            refine ⟨Nat.lt_succ_self i, ?_, hidx, rfl, rfl⟩
            simp
          | tail _ hp =>
            obtain ⟨h1, h2, h3, h4, h5⟩ := ihmem p hp
            refine ⟨Nat.lt_of_succ_lt h1, ?_, h3, h4, h5⟩
            have hge : i + 2 ≤ p.lineNumber := h1
            have : p.lineNumber - (i + 1) = (p.lineNumber - (i + 2)) + 1 := by omega
            rw [this, List.getElem?_cons_succ]
            exact h2
        · rw [List.map_cons]
          rw [List.pairwise_cons]
          constructor
          · intro a ha
            simp only [List.mem_map] at ha
            obtain ⟨p, hp, rfl⟩ := ha
            exact (ihmem p hp).1
          · exact ihpw
      | none =>
        have hloop : plainLinesLoop search repl (line :: rest) (b + 1) i mi =
            plainLinesLoop search repl rest (b + 1) (i + 1) mi := by
          conv_lhs => unfold plainLinesLoop; rw [hidx]
        rw [hloop]
        obtain ⟨ihmem, ihpw⟩ := ih (b + 1) (i + 1) mi
        constructor
        · intro p hp
          obtain ⟨h1, h2, h3, h4, h5⟩ := ihmem p hp
          refine ⟨Nat.lt_of_succ_lt h1, ?_, h3, h4, h5⟩
          have : p.lineNumber - (i + 1) = (p.lineNumber - (i + 2)) + 1 := by omega
          rw [this, List.getElem?_cons_succ]
          exact h2
        · exact ihpw

/-- C6 (confirmed): in plain-text mode, for every text and non-empty
find string, the scanner's `totalCount` is the number of pieces the text
splits into on the find string minus one, and the materialized match
list contains at most one match per line (line numbers strictly
increase), each being the first occurrence in its line (`indexOf`, with
the minimality property spelt out). -/
theorem scanner_plain_mode_spec (text search repl : List Char) (limit : Nat)
    (hne : search.isEmpty = false) :
    (generateMatchPreviews text search repl false none limit).2 =
        (splitJS text search).length - 1 ∧
      (∀ p ∈ (generateMatchPreviews text search repl false none limit).1,
        (splitNl text)[p.lineNumber - 1]? = some p.lineContent ∧
          indexOfJS p.lineContent search = some p.matchStartInLine ∧
          search.isPrefixOf (p.lineContent.drop p.matchStartInLine) = true ∧
          (∀ m < p.matchStartInLine, search.isPrefixOf (p.lineContent.drop m) = false) ∧
          p.matchedText = search) ∧
      ((generateMatchPreviews text search repl false none limit).1.map
        (·.lineNumber)).Pairwise (· < ·) := by
  have hprev : (generateMatchPreviews text search repl false none limit).1 =
      plainLinesLoop search repl (splitNl text) limit 0 0 := rfl
  obtain ⟨hmem, hpw⟩ := plainLinesLoop_spec search repl (splitNl text) limit 0 0
  refine ⟨rfl, ?_, ?_⟩
  · intro p hp
    rw [hprev] at hp
    obtain ⟨h1, h2, h3, _, h5⟩ := hmem p hp
    obtain ⟨hpre, hmin⟩ := indexOfJS_spec p.lineContent search p.matchStartInLine h3
    exact ⟨by simpa using h2, h3, hpre, hmin, h5⟩
  · rw [hprev]
    exact hpw

/-- C6, witness: the claim theorem applied to the text `ab ab\ncd ab`
with find string `ab` — the first line contains two occurrences but
contributes exactly one materialized match, at its first occurrence. -/
theorem scanner_plain_mode_spec_witness :
    ("ab".toList.isEmpty = false) ∧
      ((generateMatchPreviews "ab ab\ncd ab".toList "ab".toList "X".toList false none 5).2 =
          (splitJS "ab ab\ncd ab".toList "ab".toList).length - 1 ∧
        (∀ p ∈ (generateMatchPreviews "ab ab\ncd ab".toList "ab".toList "X".toList
            false none 5).1,
          (splitNl "ab ab\ncd ab".toList)[p.lineNumber - 1]? = some p.lineContent ∧
            indexOfJS p.lineContent "ab".toList = some p.matchStartInLine ∧
            "ab".toList.isPrefixOf (p.lineContent.drop p.matchStartInLine) = true ∧
            (∀ m < p.matchStartInLine,
              "ab".toList.isPrefixOf (p.lineContent.drop m) = false) ∧
            p.matchedText = "ab".toList) ∧
        ((generateMatchPreviews "ab ab\ncd ab".toList "ab".toList "X".toList false none
          5).1.map (·.lineNumber)).Pairwise (· < ·)) :=
  ⟨by decide,
    scanner_plain_mode_spec "ab ab\ncd ab".toList "ab".toList "X".toList 5 (by decide)⟩

/-! ## Claim C7 -/

/-- C7 (confirmed): recording a (find, replace, regex, case) 4-tuple
that already exists in the history leaves the history length unchanged,
bumps the matching entry's `useCount` by one and its `lastUsed` to now,
and moves it to the front without changing its `id` or `name`; the rest
of the list is the original list with that entry removed. -/
theorem history_dedup (patterns : List RegexPattern) (maxHistorySize now : Nat)
    (freshId : String) (findText replaceText : String) (useRegEx caseInsensitive : Bool)
    (i : Nat) (p : RegexPattern)
    (hidx : patterns.findIdx? (patternKeyMatches findText replaceText useRegEx caseInsensitive) =
      some i)
    (hget : patterns[i]? = some p) :
    savePattern patterns maxHistorySize now freshId findText replaceText useRegEx
        caseInsensitive =
      { p with lastUsed := now, useCount := p.useCount + 1 } :: patterns.eraseIdx i ∧
    (savePattern patterns maxHistorySize now freshId findText replaceText useRegEx
        caseInsensitive).length = patterns.length ∧
    (savePattern patterns maxHistorySize now freshId findText replaceText useRegEx
        caseInsensitive).head? =
      some { p with lastUsed := now, useCount := p.useCount + 1 } ∧
    ({ p with lastUsed := now, useCount := p.useCount + 1 } : RegexPattern).id = p.id ∧
    ({ p with lastUsed := now, useCount := p.useCount + 1 } : RegexPattern).name = p.name ∧
    ({ p with lastUsed := now, useCount := p.useCount + 1 } : RegexPattern).useCount =
      p.useCount + 1 ∧
    ({ p with lastUsed := now, useCount := p.useCount + 1 } : RegexPattern).lastUsed = now := by
  have hlt : i < patterns.length := (List.getElem?_eq_some_iff.mp hget).1
  have hsave : savePattern patterns maxHistorySize now freshId findText replaceText useRegEx
      caseInsensitive =
      { p with lastUsed := now, useCount := p.useCount + 1 } :: patterns.eraseIdx i := by
    unfold savePattern
    rw [hidx]
    show (match patterns[i]? with
      | some p => { p with lastUsed := now, useCount := p.useCount + 1 } :: patterns.eraseIdx i
      | none => patterns) =
      { p with lastUsed := now, useCount := p.useCount + 1 } :: patterns.eraseIdx i
    rw [hget]
  refine ⟨hsave, ?_, ?_, rfl, rfl, rfl, rfl⟩
  · rw [hsave]
    simp only [List.length_cons, List.length_eraseIdx, if_pos hlt]
    omega
  · rw [hsave]
    rfl

/-- C7, witness: a two-entry history where the second entry matches the
recorded 4-tuple; recording moves it to the front with `useCount` 2. -/
theorem history_dedup_witness :
    ([⟨"id2", "m", "g", "s", true, false, false, 7, 3⟩,
        ⟨"id1", "n", "f", "r", true, false, false, 5, 1⟩] :
          List RegexPattern).findIdx? (patternKeyMatches "f" "r" true false) = some 1 ∧
      ([⟨"id2", "m", "g", "s", true, false, false, 7, 3⟩,
        ⟨"id1", "n", "f", "r", true, false, false, 5, 1⟩] :
          List RegexPattern)[1]? = some ⟨"id1", "n", "f", "r", true, false, false, 5, 1⟩ ∧
      savePattern
          [⟨"id2", "m", "g", "s", true, false, false, 7, 3⟩,
            ⟨"id1", "n", "f", "r", true, false, false, 5, 1⟩] 10 99 "fresh" "f" "r" true false =
        [⟨"id1", "n", "f", "r", true, false, false, 99, 2⟩,
          ⟨"id2", "m", "g", "s", true, false, false, 7, 3⟩] :=
  ⟨by decide, by decide,
    (history_dedup
      [⟨"id2", "m", "g", "s", true, false, false, 7, 3⟩,
        ⟨"id1", "n", "f", "r", true, false, false, 5, 1⟩] 10 99 "fresh" "f" "r" true false 1
      ⟨"id1", "n", "f", "r", true, false, false, 5, 1⟩ (by decide) (by decide)).1⟩

/-! ## Claim C8 -/

theorem perm_insertDesc (p : RegexPattern) (l : List RegexPattern) :
    (insertDesc p l).Perm (p :: l) := by
  induction l with
  | nil => simp [insertDesc]
  | cons q qs ih =>
    unfold insertDesc
    by_cases h : q.lastUsed ≤ p.lastUsed
    · simp [h]
    · simp only [h, if_false]
      exact (ih.cons q).trans (List.Perm.swap p q qs)

theorem mem_insertDesc {a p : RegexPattern} {l : List RegexPattern} :
    a ∈ insertDesc p l ↔ a = p ∨ a ∈ l := by
  rw [(perm_insertDesc p l).mem_iff]
  simp

theorem sorted_insertDesc (p : RegexPattern) (l : List RegexPattern)
    (hl : l.Pairwise recencyGE) : (insertDesc p l).Pairwise recencyGE := by
  induction l with
  | nil => simp [insertDesc, List.pairwise_cons]
  | cons q qs ih =>
    rw [List.pairwise_cons] at hl
    unfold insertDesc
    by_cases h : q.lastUsed ≤ p.lastUsed
    · simp only [h, if_true]
      rw [List.pairwise_cons]
      refine ⟨?_, List.pairwise_cons.mpr hl⟩
      intro b hb
      cases hb with
      | head => exact h
      | tail _ hb => exact Nat.le_trans (hl.1 b hb) h
    · simp only [h, if_false]
      rw [List.pairwise_cons]
      refine ⟨?_, ih hl.2⟩
      intro b hb
      rw [mem_insertDesc] at hb
      cases hb with
      | inl hb => subst hb; exact Nat.le_of_lt (Nat.lt_of_not_le h)
      | inr hb => exact hl.1 b hb

theorem perm_sortByLastUsedDesc (l : List RegexPattern) :
    (sortByLastUsedDesc l).Perm l := by
  induction l with
  | nil => rfl
  | cons p ps ih => exact (perm_insertDesc p (sortByLastUsedDesc ps)).trans (ih.cons p)

theorem sorted_sortByLastUsedDesc (l : List RegexPattern) :
    (sortByLastUsedDesc l).Pairwise recencyGE := by
  induction l with
  | nil => simp [sortByLastUsedDesc]
  | cons p ps ih => exact sorted_insertDesc p (sortByLastUsedDesc ps) ih

theorem pairwise_take_drop {l : List RegexPattern} (h : l.Pairwise recencyGE) (n : Nat) :
    ∀ x ∈ l.take n, ∀ y ∈ l.drop n, y.lastUsed ≤ x.lastUsed := by
  have hsplit : l.take n ++ l.drop n = l := List.take_append_drop n l
  rw [← hsplit] at h
  have := (List.pairwise_append.mp h).2.2
  intro x hx y hy
  exact this x hx y hy

/-- C8 (confirmed): pruning removes no pinned entry; when the number of
unpinned entries exceeds `maxHistorySize` the result is the pinned
entries followed by the first `maxHistorySize` entries of the unpinned
entries sorted by `lastUsed` descending — exactly `maxHistorySize`
unpinned entries are kept, every kept entry's `lastUsed` is at least
every discarded entry's, and kept plus discarded is a permutation of the
unpinned entries; when the unpinned count does not exceed the maximum,
pruning leaves the history unchanged. -/
theorem history_pruning (maxHistorySize : Nat) (patterns : List RegexPattern) :
    (∀ p ∈ patterns, p.isPinned = true → p ∈ pruneHistory maxHistorySize patterns) ∧
    (maxHistorySize < (patterns.filter (fun p => !p.isPinned)).length →
      pruneHistory maxHistorySize patterns =
        patterns.filter (·.isPinned) ++
          (sortByLastUsedDesc (patterns.filter (fun p => !p.isPinned))).take maxHistorySize ∧
      ((sortByLastUsedDesc (patterns.filter (fun p => !p.isPinned))).take
          maxHistorySize).length = maxHistorySize ∧
      (∀ x ∈ (sortByLastUsedDesc (patterns.filter (fun p => !p.isPinned))).take maxHistorySize,
        ∀ y ∈ (sortByLastUsedDesc (patterns.filter (fun p => !p.isPinned))).drop maxHistorySize,
          y.lastUsed ≤ x.lastUsed) ∧
      ((sortByLastUsedDesc (patterns.filter (fun p => !p.isPinned))).take maxHistorySize ++
        (sortByLastUsedDesc (patterns.filter (fun p => !p.isPinned))).drop
          maxHistorySize).Perm (patterns.filter (fun p => !p.isPinned))) ∧
    ((patterns.filter (fun p => !p.isPinned)).length ≤ maxHistorySize →
      pruneHistory maxHistorySize patterns = patterns) := by
  refine ⟨?_, ?_, ?_⟩
  · intro p hp hpin
    unfold pruneHistory
    by_cases h : maxHistorySize < (patterns.filter (fun p => !p.isPinned)).length
    · rw [if_pos h]
      exact List.mem_append_left _ (List.mem_filter.mpr ⟨hp, by simp [hpin]⟩)
    · rw [if_neg h]
      exact hp
  · intro h
    refine ⟨?_, ?_, ?_, ?_⟩
    · unfold pruneHistory
      rw [if_pos (by simpa using h)]
    · rw [List.length_take, (perm_sortByLastUsedDesc _).length_eq]
      omega
    · exact pairwise_take_drop (sorted_sortByLastUsedDesc _) maxHistorySize
    · rw [List.take_append_drop]
      exact perm_sortByLastUsedDesc _
  · intro h
    unfold pruneHistory
    rw [if_neg (by simpa using Nat.not_lt_of_le h)]

/-- C8, witness: with `maxHistorySize = 1`, a history of one pinned and
two unpinned entries keeps the pinned entry and the most recently used
unpinned entry, and with `maxHistorySize = 2` it is left unchanged. -/
theorem history_pruning_witness :
    (⟨"id3", "p", "h", "t", false, false, true, 1, 1⟩ : RegexPattern) ∈
        pruneHistory 1
          [⟨"id3", "p", "h", "t", false, false, true, 1, 1⟩,
            ⟨"id1", "n", "f", "r", true, false, false, 5, 1⟩,
            ⟨"id2", "m", "g", "s", true, false, false, 7, 3⟩] ∧
      pruneHistory 1
          [⟨"id3", "p", "h", "t", false, false, true, 1, 1⟩,
            ⟨"id1", "n", "f", "r", true, false, false, 5, 1⟩,
            ⟨"id2", "m", "g", "s", true, false, false, 7, 3⟩] =
        ([⟨"id3", "p", "h", "t", false, false, true, 1, 1⟩,
          ⟨"id1", "n", "f", "r", true, false, false, 5, 1⟩,
          ⟨"id2", "m", "g", "s", true, false, false, 7, 3⟩] :
            List RegexPattern).filter (·.isPinned) ++
          (sortByLastUsedDesc
            (([⟨"id3", "p", "h", "t", false, false, true, 1, 1⟩,
              ⟨"id1", "n", "f", "r", true, false, false, 5, 1⟩,
              ⟨"id2", "m", "g", "s", true, false, false, 7, 3⟩] :
                List RegexPattern).filter (fun p => !p.isPinned))).take 1 ∧
      pruneHistory 2
          [⟨"id3", "p", "h", "t", false, false, true, 1, 1⟩,
            ⟨"id1", "n", "f", "r", true, false, false, 5, 1⟩,
            ⟨"id2", "m", "g", "s", true, false, false, 7, 3⟩] =
        [⟨"id3", "p", "h", "t", false, false, true, 1, 1⟩,
          ⟨"id1", "n", "f", "r", true, false, false, 5, 1⟩,
          ⟨"id2", "m", "g", "s", true, false, false, 7, 3⟩] :=
  ⟨(history_pruning 1
      [⟨"id3", "p", "h", "t", false, false, true, 1, 1⟩,
        ⟨"id1", "n", "f", "r", true, false, false, 5, 1⟩,
        ⟨"id2", "m", "g", "s", true, false, false, 7, 3⟩]).1
      ⟨"id3", "p", "h", "t", false, false, true, 1, 1⟩ (by decide) (by decide),
    ((history_pruning 1
      [⟨"id3", "p", "h", "t", false, false, true, 1, 1⟩,
        ⟨"id1", "n", "f", "r", true, false, false, 5, 1⟩,
        ⟨"id2", "m", "g", "s", true, false, false, 7, 3⟩]).2.1 (by decide)).1,
    (history_pruning 2
      [⟨"id3", "p", "h", "t", false, false, true, 1, 1⟩,
        ⟨"id1", "n", "f", "r", true, false, false, 5, 1⟩,
        ⟨"id2", "m", "g", "s", true, false, false, 7, 3⟩]).2.2 (by decide)⟩

/-! ## Claim C9 — parsing lemmas for the heading-cap scenario -/

theorem beq_false_of_ws_not_ws {c d : Char} (hc : wsChar c = true) (hd : wsChar d = false) :
    (c == d) = false := by
  cases h : c == d with
  | false => rfl
  | true =>
    have : c = d := beq_iff_eq.mp h
    subst this
    rw [hc] at hd
    exact absurd hd (by simp)

theorem spaceTab_ws {c : Char} (h : spaceTab c = true) : wsChar c = true := by
  unfold spaceTab at h
  rcases Bool.or_eq_true _ _ |>.mp h with h1 | h1
  · rw [show c = ' ' from beq_iff_eq.mp h1]; decide
  · rw [show c = '\t' from beq_iff_eq.mp h1]; decide

theorem spaceTab_false_of_not_ws {c : Char} (h : wsChar c = false) : spaceTab c = false := by
  cases hs : spaceTab c with
  | false => rfl
  | true => rw [spaceTab_ws hs] at h; exact absurd h (by simp)

theorem takeWhile_hash_replicate (n : Nat) (rest : List Char) (hd : Char)
    (hhd : (hd == '#') = false) :
    List.takeWhile (· == '#') (List.replicate n '#' ++ hd :: rest) = List.replicate n '#' := by
  rw [takeWhile_append_all (hd :: rest) (fun x hx => by
    rw [show x = '#' from (List.eq_of_mem_replicate hx)]; rfl)]
  rw [takeWhile_cons_neg (fun x => x == '#') hd rest hhd, List.append_nil]

theorem dropWhile_hash_replicate (n : Nat) (rest : List Char) (hd : Char)
    (hhd : (hd == '#') = false) :
    List.dropWhile (· == '#') (List.replicate n '#' ++ hd :: rest) = hd :: rest := by
  rw [dropWhile_append_all (hd :: rest) (fun x hx => by
    rw [show x = '#' from (List.eq_of_mem_replicate hx)]; rfl)]
  rw [dropWhile_cons_neg (fun x => x == '#') hd rest hhd]

theorem takeWhile_ws_then_hash {indent : List Char} (rest : List Char) (n : Nat)
    (hind : ∀ c ∈ indent, wsChar c = true) :
    List.takeWhile wsChar (indent ++ (List.replicate (n + 1) '#' ++ rest)) = indent := by
  rw [takeWhile_append_all _ hind]
  rw [List.replicate_succ, List.cons_append, takeWhile_cons_neg wsChar '#' _ (by decide),
    List.append_nil]

theorem dropWhile_ws_then_hash {indent : List Char} (rest : List Char) (n : Nat)
    (hind : ∀ c ∈ indent, wsChar c = true) :
    List.dropWhile wsChar (indent ++ (List.replicate (n + 1) '#' ++ rest)) =
      List.replicate (n + 1) '#' ++ rest := by
  rw [dropWhile_append_all _ hind]
  rw [List.replicate_succ, List.cons_append, dropWhile_cons_neg wsChar '#' _ (by decide),
    ← List.cons_append, ← List.replicate_succ]
section HeadingScenario

variable (indent mid' text' : List Char) (k : Nat) (mc tc : Char)

theorem dupHeadRule_heading_none
    (hind : ∀ c ∈ indent, wsChar c = true) (hmc : wsChar mc = true) :
    dupHeadRule (indent ++ (List.replicate (k + 7) '#' ++ (mc :: (mid' ++ tc :: text')))) =
      none := by
  have e1 : List.takeWhile wsChar
      (indent ++ (List.replicate (k + 7) '#' ++ (mc :: (mid' ++ tc :: text')))) = indent := by
    rw [show (k + 7) = (k + 6) + 1 from by omega]
    exact takeWhile_ws_then_hash (mc :: (mid' ++ tc :: text')) (k + 6) hind
  have e2 : List.dropWhile wsChar
      (indent ++ (List.replicate (k + 7) '#' ++ (mc :: (mid' ++ tc :: text')))) =
      List.replicate (k + 7) '#' ++ (mc :: (mid' ++ tc :: text')) := by
    rw [show (k + 7) = (k + 6) + 1 from by omega]
    exact dropWhile_ws_then_hash (mc :: (mid' ++ tc :: text')) (k + 6) hind
  have e3 : List.takeWhile (· == '#')
      (List.replicate (k + 7) '#' ++ (mc :: (mid' ++ tc :: text'))) =
      List.replicate (k + 7) '#' :=
    takeWhile_hash_replicate (k + 7) (mid' ++ tc :: text') mc
      (beq_false_of_ws_not_ws hmc (by decide))
  unfold dupHeadRule
  simp only [e1, e2, e3, List.length_replicate]
  rw [if_neg (by simp)]

end HeadingScenario
section HeadingScenario2

variable (indent mid' text' : List Char) (k : Nat) (mc tc : Char)

theorem capHeadRule_heading
    (hind : ∀ c ∈ indent, wsChar c = true) (hmc : wsChar mc = true)
    (hmid' : ∀ c ∈ mid', wsChar c = true) (htc : wsChar tc = false) :
    capHeadRule (indent ++ (List.replicate (k + 7) '#' ++ (mc :: (mid' ++ tc :: text')))) =
      some (indent ++ ('#' :: '#' :: '#' :: '#' :: '#' :: '#' :: ' ' :: tc :: text')) := by
  have e1 : List.takeWhile wsChar
      (indent ++ (List.replicate (k + 7) '#' ++ (mc :: (mid' ++ tc :: text')))) = indent := by
    rw [show (k + 7) = (k + 6) + 1 from by omega]
    exact takeWhile_ws_then_hash (mc :: (mid' ++ tc :: text')) (k + 6) hind
  have e2 : List.dropWhile wsChar
      (indent ++ (List.replicate (k + 7) '#' ++ (mc :: (mid' ++ tc :: text')))) =
      List.replicate (k + 7) '#' ++ (mc :: (mid' ++ tc :: text')) := by
    rw [show (k + 7) = (k + 6) + 1 from by omega]
    exact dropWhile_ws_then_hash (mc :: (mid' ++ tc :: text')) (k + 6) hind
  have e3 : List.takeWhile (· == '#')
      (List.replicate (k + 7) '#' ++ (mc :: (mid' ++ tc :: text'))) =
      List.replicate (k + 7) '#' :=
    takeWhile_hash_replicate (k + 7) (mid' ++ tc :: text') mc
      (beq_false_of_ws_not_ws hmc (by decide))
  have e4 : List.dropWhile (· == '#')
      (List.replicate (k + 7) '#' ++ (mc :: (mid' ++ tc :: text'))) =
      mc :: (mid' ++ tc :: text') :=
    dropWhile_hash_replicate (k + 7) (mid' ++ tc :: text') mc
      (beq_false_of_ws_not_ws hmc (by decide))
  have e5 : List.takeWhile wsChar (mc :: (mid' ++ tc :: text')) = mc :: mid' := by
    rw [List.takeWhile_cons, if_pos hmc, takeWhile_append_all _ hmid',
      takeWhile_cons_neg wsChar tc text' htc, List.append_nil]
  have e6 : List.dropWhile wsChar (mc :: (mid' ++ tc :: text')) = tc :: text' := by
    rw [List.dropWhile_cons, if_pos hmc, dropWhile_append_all _ hmid',
      dropWhile_cons_neg wsChar tc text' htc]
  unfold capHeadRule
  simp only [e1, e2, e3, e4, e5, e6, List.length_replicate]
  rw [if_pos (by simp)]

theorem normHeadRule_capped
    (hind : ∀ c ∈ indent, wsChar c = true) (htc : wsChar tc = false) :
    normHeadRule (indent ++ ('#' :: '#' :: '#' :: '#' :: '#' :: '#' :: ' ' :: tc :: text')) =
      (if indent.length ≤ 3 then
        some (indent ++ ('#' :: '#' :: '#' :: '#' :: '#' :: '#' :: ' ' :: tc :: text'), false)
      else none) := by
  have e1 : List.takeWhile wsChar
      (indent ++ ('#' :: '#' :: '#' :: '#' :: '#' :: '#' :: ' ' :: tc :: text')) = indent := by
    rw [takeWhile_append_all _ hind, takeWhile_cons_neg wsChar '#' _ (by decide),
      List.append_nil]
  have e2 : List.dropWhile wsChar
      (indent ++ ('#' :: '#' :: '#' :: '#' :: '#' :: '#' :: ' ' :: tc :: text')) =
      '#' :: '#' :: '#' :: '#' :: '#' :: '#' :: ' ' :: tc :: text' := by
    rw [dropWhile_append_all _ hind, dropWhile_cons_neg wsChar '#' _ (by decide)]
  have e3 : List.takeWhile (· == '#')
      ('#' :: '#' :: '#' :: '#' :: '#' :: '#' :: ' ' :: tc :: text' : List Char) =
      ['#', '#', '#', '#', '#', '#'] := by
    simp [List.takeWhile_cons]
  have e4 : List.dropWhile (· == '#')
      ('#' :: '#' :: '#' :: '#' :: '#' :: '#' :: ' ' :: tc :: text' : List Char) =
      ' ' :: tc :: text' := by
    simp [List.dropWhile_cons]
  unfold normHeadRule
  simp only [e1, e2, e3, e4]
  by_cases hlen : indent.length ≤ 3
  · rw [if_pos hlen]
    rw [if_pos (by simp [hlen])]
    rw [if_neg (by simp)]
    have e5 : List.dropWhile spaceTab (' ' :: tc :: text') = tc :: text' := by
      rw [List.dropWhile_cons, if_pos (by decide),
        dropWhile_cons_neg spaceTab tc text' (spaceTab_false_of_not_ws htc)]
    simp only [e5]
    rw [if_pos (by simp [htc])]
    simp [htc]
  · rw [if_neg hlen]
    rw [if_neg (by simp [hlen])]

end HeadingScenario2
section HeadingScenario3

variable (indent mid' text' : List Char) (k : Nat) (mc tc : Char)

theorem listBulletRule_capped (hind : ∀ c ∈ indent, wsChar c = true) :
    listBulletRule (indent ++ ('#' :: '#' :: '#' :: '#' :: '#' :: '#' :: ' ' :: tc :: text')) =
      none := by
  have e2 : List.dropWhile wsChar
      (indent ++ ('#' :: '#' :: '#' :: '#' :: '#' :: '#' :: ' ' :: tc :: text')) =
      '#' :: '#' :: '#' :: '#' :: '#' :: '#' :: ' ' :: tc :: text' := by
    rw [dropWhile_append_all _ hind, dropWhile_cons_neg wsChar '#' _ (by decide)]
  unfold listBulletRule
  simp only [e2]
  rw [if_neg (by decide)]

theorem listOrderedRule_capped (hind : ∀ c ∈ indent, wsChar c = true) :
    listOrderedRule (indent ++ ('#' :: '#' :: '#' :: '#' :: '#' :: '#' :: ' ' :: tc :: text')) =
      none := by
  have e2 : List.dropWhile wsChar
      (indent ++ ('#' :: '#' :: '#' :: '#' :: '#' :: '#' :: ' ' :: tc :: text')) =
      '#' :: '#' :: '#' :: '#' :: '#' :: '#' :: ' ' :: tc :: text' := by
    rw [dropWhile_append_all _ hind, dropWhile_cons_neg wsChar '#' _ (by decide)]
  unfold listOrderedRule
  simp only [e2]
  rw [if_neg (by simp [List.takeWhile_cons])]

theorem fenceMatch_heading (hind : ∀ c ∈ indent, wsChar c = true) (hmc : wsChar mc = true) :
    fenceMatch (indent ++ (List.replicate (k + 7) '#' ++ (mc :: (mid' ++ tc :: text')))) =
      none := by
  have e2 : List.dropWhile wsChar
      (indent ++ (List.replicate (k + 7) '#' ++ (mc :: (mid' ++ tc :: text')))) =
      List.replicate (k + 7) '#' ++ (mc :: (mid' ++ tc :: text')) := by
    rw [show (k + 7) = (k + 6) + 1 from by omega]
    exact dropWhile_ws_then_hash (mc :: (mid' ++ tc :: text')) (k + 6) hind
  unfold fenceMatch
  simp only [e2]
  rw [show List.replicate (k + 7) '#' ++ (mc :: (mid' ++ tc :: text')) =
    '#' :: (List.replicate (k + 6) '#' ++ (mc :: (mid' ++ tc :: text'))) from by
      rw [show (k + 7) = (k + 6) + 1 from by omega, List.replicate_succ, List.cons_append]]
  rw [takeWhile_cons_neg (fun x => x == '`') '#' _ (by decide)]
  rw [takeWhile_cons_neg (fun x => x == '~') '#' _ (by decide)]
  simp

end HeadingScenario3
section HeadingScenario4

variable (indent mid' text' : List Char) (k : Nat) (mc tc : Char)

theorem applyRules_heading
    (hind : ∀ c ∈ indent, wsChar c = true) (hmc : wsChar mc = true)
    (hmid' : ∀ c ∈ mid', wsChar c = true) (htc : wsChar tc = false) :
    applyRules (indent ++ (List.replicate (k + 7) '#' ++ (mc :: (mid' ++ tc :: text')))) =
      (indent ++ ('#' :: '#' :: '#' :: '#' :: '#' :: '#' :: ' ' :: tc :: text'),
        ["heading_cap_to_h6"]) := by
  unfold applyRules
  rw [dupHeadRule_heading_none indent mid' text' k mc tc hind hmc]
  simp only []
  rw [capHeadRule_heading indent mid' text' k mc tc hind hmc hmid' htc]
  simp only []
  rw [normHeadRule_capped indent text' tc hind htc]
  by_cases hlen : indent.length ≤ 3
  · rw [if_pos hlen]
    simp only []
    rw [listBulletRule_capped indent text' tc hind]
    simp only []
    rw [listOrderedRule_capped indent text' tc hind]
    simp
  · rw [if_neg hlen]
    simp only []
    rw [listBulletRule_capped indent text' tc hind]
    simp only []
    rw [listOrderedRule_capped indent text' tc hind]
    simp

end HeadingScenario4
/-- C9 (confirmed): in the first pass of the Markdown normalizer, a
heading line with more than six hashes (optional whitespace indent, `7 +
k` hashes, at least one whitespace, then text starting with a
non-whitespace character) processed outside any open fence is capped to
exactly six hashes with its text preserved and counted under
`heading_cap_to_h6`; the same line processed inside an open fence is
left entirely untouched (state and stats unchanged); and an open fence
with marker `m` is closed by a line only if that line starts, after
optional leading whitespace, with three-or-more of the same fence
character `m`. -/
theorem markdown_heading_cap_fence (indent mid' text' : List Char) (k : Nat) (mc tc : Char)
    (stats : List FixStat) (mk : Option Char) (m : Char) (line2 : List Char)
    (hind : ∀ c ∈ indent, wsChar c = true) (hmc : wsChar mc = true)
    (hmid' : ∀ c ∈ mid', wsChar c = true) (htc : wsChar tc = false) :
    pass1Step (false, none, stats)
        (indent ++ (List.replicate (k + 7) '#' ++ (mc :: (mid' ++ tc :: text')))) =
      ((false, none, incStat stats "heading_cap_to_h6" 1),
        indent ++ ('#' :: '#' :: '#' :: '#' :: '#' :: '#' :: ' ' :: tc :: text')) ∧
    pass1Step (true, mk, stats)
        (indent ++ (List.replicate (k + 7) '#' ++ (mc :: (mid' ++ tc :: text')))) =
      ((true, mk, stats),
        indent ++ (List.replicate (k + 7) '#' ++ (mc :: (mid' ++ tc :: text')))) ∧
    ((pass1Step (true, some m, stats) line2).1.1 = false →
      3 ≤ ((line2.dropWhile wsChar).takeWhile (· == m)).length) := by
  refine ⟨?_, ?_, ?_⟩
  · unfold pass1Step
    rw [fenceMatch_heading indent mid' text' k mc tc hind hmc]
    rw [applyRules_heading indent mid' text' k mc tc hind hmc hmid' htc]
    rfl
  · unfold pass1Step
    rw [fenceMatch_heading indent mid' text' k mc tc hind hmc]
    rfl
  · unfold pass1Step
    cases hfm : fenceMatch line2 with
    | none =>
      simp only []
      intro h
      simp at h
    | some c =>
      simp only []
      unfold fenceUpdate
      simp only [Bool.not_true, Bool.false_eq_true, if_false]
      by_cases hcm : some c = (some m : Option Char)
      · have hc : c = m := by injection hcm
        subst hc
        intro _
        unfold fenceMatch at hfm
        by_cases h1 : 3 ≤ ((line2.dropWhile wsChar).takeWhile (· == '`')).length
        · rw [if_pos h1] at hfm
          have : c = '`' := by injection hfm with h; exact h.symm
          rw [this]
          exact h1
        · rw [if_neg h1] at hfm
          by_cases h2 : 3 ≤ ((line2.dropWhile wsChar).takeWhile (· == '~')).length
          · rw [if_pos h2] at hfm
            have : c = '~' := by injection hfm with h; exact h.symm
            rw [this]
            exact h2
          · rw [if_neg h2] at hfm
            exact absurd hfm (by simp)
      · rw [if_neg hcm]
        intro h
        simp at h

/-- C9, witness: the claim theorem applied to the line `######## deep`
(no indent, eight hashes), the empty stats list, an open backtick fence,
and the closing line ``` ``` ``. -/
theorem markdown_heading_cap_fence_witness :
    pass1Step (false, none, [])
        ([] ++ (List.replicate (1 + 7) '#' ++ (' ' :: ([] ++ 'd' :: "eep".toList)))) =
      ((false, none, incStat [] "heading_cap_to_h6" 1),
        [] ++ ('#' :: '#' :: '#' :: '#' :: '#' :: '#' :: ' ' :: 'd' :: "eep".toList)) ∧
    pass1Step (true, some '`', [])
        ([] ++ (List.replicate (1 + 7) '#' ++ (' ' :: ([] ++ 'd' :: "eep".toList)))) =
      ((true, some '`', []),
        [] ++ (List.replicate (1 + 7) '#' ++ (' ' :: ([] ++ 'd' :: "eep".toList)))) ∧
    ((pass1Step (true, some '`', []) "```".toList).1.1 = false →
      3 ≤ (("```".toList.dropWhile wsChar).takeWhile (· == '`')).length) :=
  markdown_heading_cap_fence [] [] "eep".toList 1 ' ' 'd' [] (some '`') '`' "```".toList
    (by simp) (by decide) (by simp) (by decide)
/-! ## Claim C10 — line-count preservation of the normalizer -/

theorem mem_of_mem_takeWhile {p : Char → Bool} {a : Char} {l : List Char}
    (h : a ∈ l.takeWhile p) : a ∈ l :=
  (List.takeWhile_sublist p).subset h

theorem mem_of_mem_dropWhile {p : Char → Bool} {a : Char} {l : List Char}
    (h : a ∈ l.dropWhile p) : a ∈ l :=
  (List.dropWhile_sublist p).subset h

theorem mem_of_mem_trimJS {a : Char} {l : List Char} (h : a ∈ trimJS l) : a ∈ l := by
  unfold trimJS at h
  rw [List.mem_reverse] at h
  have h2 := mem_of_mem_dropWhile h
  rw [List.mem_reverse] at h2
  exact mem_of_mem_dropWhile h2

theorem noNl_dupHeadRule {line nl : List Char} (h : dupHeadRule line = some nl)
    (hline : '\n' ∉ line) : '\n' ∉ nl := by
  unfold dupHeadRule at h
  dsimp only at h
  split at h
  · split at h
    · injection h with h
      subst h
      intro hmem
      simp only [List.mem_append, List.mem_cons] at hmem
      rcases hmem with (h1 | h1) | (h1 | h1)
      · exact hline (mem_of_mem_takeWhile h1)
      · exact hline (mem_of_mem_dropWhile (mem_of_mem_takeWhile h1))
      · exact absurd h1 (by decide)
      · exact hline (mem_of_mem_dropWhile (mem_of_mem_dropWhile (mem_of_mem_dropWhile
          (mem_of_mem_dropWhile (mem_of_mem_dropWhile (mem_of_mem_trimJS h1))))))
    · split at h
      · injection h with h
        subst h
        intro hmem
        simp only [List.mem_append, List.mem_cons] at hmem
        rcases hmem with (h1 | h1) | (h1 | h1)
        · exact hline (mem_of_mem_takeWhile h1)
        · exact hline (mem_of_mem_dropWhile (mem_of_mem_takeWhile h1))
        · exact absurd h1 (by decide)
        · have := mem_of_mem_trimJS h1
          have := List.drop_subset _ _ this
          have := mem_of_mem_takeWhile this
          exact hline (mem_of_mem_dropWhile (mem_of_mem_dropWhile
            (mem_of_mem_dropWhile (mem_of_mem_dropWhile this))))
      · exact absurd h (by simp)
  · exact absurd h (by simp)
theorem noNl_capHeadRule {line nl : List Char} (h : capHeadRule line = some nl)
    (hline : '\n' ∉ line) : '\n' ∉ nl := by
  unfold capHeadRule at h
  dsimp only at h
  split at h
  · injection h with h
    subst h
    intro hmem
    simp only [List.mem_append, List.mem_cons] at hmem
    rcases hmem with h1 | (h1 | h1 | h1 | h1 | h1 | h1 | h1 | h1)
    · exact hline (mem_of_mem_takeWhile h1)
    · exact absurd h1 (by decide)
    · exact absurd h1 (by decide)
    · exact absurd h1 (by decide)
    · exact absurd h1 (by decide)
    · exact absurd h1 (by decide)
    · exact absurd h1 (by decide)
    · exact absurd h1 (by decide)
    · exact hline (mem_of_mem_dropWhile (mem_of_mem_dropWhile (mem_of_mem_dropWhile h1)))
  · exact absurd h (by simp)

theorem noNl_normHeadRule {line : List Char} {nl : List Char × Bool}
    (h : normHeadRule line = some nl) (hline : '\n' ∉ line) : '\n' ∉ nl.1 := by
  unfold normHeadRule at h
  dsimp only at h
  split at h
  · split at h
    · injection h with h
      subst h
      intro hmem
      simp only [List.mem_append, List.mem_cons] at hmem
      rcases hmem with (h1 | h1) | (h1 | h1 | h1)
      · exact hline (mem_of_mem_takeWhile h1)
      · exact hline (mem_of_mem_dropWhile (mem_of_mem_takeWhile (List.take_subset _ _ h1)))
      · exact absurd h1 (by decide)
      · exact hline (mem_of_mem_dropWhile (mem_of_mem_takeWhile (List.drop_subset _ _ h1)))
      · exact hline (mem_of_mem_dropWhile (mem_of_mem_dropWhile h1))
    · split at h
      · injection h with h
        subst h
        intro hmem
        simp only [List.mem_append, List.mem_cons] at hmem
        rcases hmem with (h1 | h1) | (h1 | h1)
        · exact hline (mem_of_mem_takeWhile h1)
        · exact hline (mem_of_mem_dropWhile (mem_of_mem_takeWhile h1))
        · exact absurd h1 (by decide)
        · exact hline (mem_of_mem_dropWhile (mem_of_mem_dropWhile
            (mem_of_mem_dropWhile h1)))
      · split at h
        · injection h with h
          subst h
          intro hmem
          simp only [List.mem_append, List.mem_cons] at hmem
          rcases hmem with (h1 | h1) | (h1 | h1 | h1)
          · exact hline (mem_of_mem_takeWhile h1)
          · exact hline (mem_of_mem_dropWhile (mem_of_mem_takeWhile (List.take_subset _ _ h1)))
          · exact absurd h1 (by decide)
          · exact absurd h1 (by decide)
          · exact hline (mem_of_mem_dropWhile (mem_of_mem_dropWhile h1))
        · exact absurd h (by simp)
  · exact absurd h (by simp)

theorem noNl_listBulletRule {line : List Char} {nl : List Char × Bool}
    (h : listBulletRule line = some nl) (hline : '\n' ∉ line) : '\n' ∉ nl.1 := by
  unfold listBulletRule at h
  dsimp only at h
  split at h
  case h_2 => exact absurd h (by simp)
  case h_1 b r2 heq =>
    split at h
    · split at h
      case h_2 => exact absurd h (by simp)
      case h_1 c rest heq2 =>
        split at h
        · injection h with h
          subst h
          intro hmem
          simp only [List.mem_append, List.mem_cons] at hmem
          have hr2 : ∀ a : Char, a ∈ r2 → a ∈ line := by
            intro a ha
            have : a ∈ List.dropWhile wsChar line := by
              rw [heq]; exact List.mem_cons_of_mem b ha
            exact mem_of_mem_dropWhile this
          have hdst : ∀ a : Char, a ∈ List.dropWhile spaceTab r2 → a ∈ line := by
            intro a ha
            exact hr2 a (mem_of_mem_dropWhile ha)
          rcases hmem with h1 | (h1 | h1 | h1 | h1)
          · exact hline (mem_of_mem_takeWhile h1)
          · subst h1
            have : '\n' ∈ List.dropWhile wsChar line := by
              rw [heq]; exact List.mem_cons_self _ _
            exact hline (mem_of_mem_dropWhile this)
          · exact absurd h1 (by decide)
          · subst h1
            exact hline (hdst '\n' (by rw [heq2]; exact List.mem_cons_self _ _))
          · exact hline (hdst '\n' (by rw [heq2]; exact List.mem_cons_of_mem c h1))
        · exact absurd h (by simp)
    · exact absurd h (by simp)

theorem noNl_listOrderedRule {line : List Char} {nl : List Char × Bool}
    (h : listOrderedRule line = some nl) (hline : '\n' ∉ line) : '\n' ∉ nl.1 := by
  unfold listOrderedRule at h
  dsimp only at h
  split at h
  · split at h
    case h_2 => exact absurd h (by simp)
    case h_1 r3 heq =>
      split at h
      case h_2 => exact absurd h (by simp)
      case h_1 c rest heq2 =>
        split at h
        · injection h with h
          subst h
          intro hmem
          simp only [List.mem_append, List.mem_cons] at hmem
          have hr3 : ∀ a : Char, a ∈ r3 → a ∈ line := by
            intro a ha
            have : a ∈ List.dropWhile Char.isDigit (List.dropWhile wsChar line) := by
              rw [heq]; exact List.mem_cons_of_mem '.' ha
            exact mem_of_mem_dropWhile (mem_of_mem_dropWhile this)
          have hdst : ∀ a : Char, a ∈ List.dropWhile spaceTab r3 → a ∈ line := by
            intro a ha
            exact hr3 a (mem_of_mem_dropWhile ha)
          rcases hmem with (h1 | h1) | (h1 | h1 | h1 | h1)
          · exact hline (mem_of_mem_takeWhile h1)
          · exact hline (mem_of_mem_dropWhile (mem_of_mem_takeWhile h1))
          · exact absurd h1 (by decide)
          · exact absurd h1 (by decide)
          · subst h1
            exact hline (hdst '\n' (by rw [heq2]; exact List.mem_cons_self _ _))
          · exact hline (hdst '\n' (by rw [heq2]; exact List.mem_cons_of_mem c h1))
        · exact absurd h (by simp)
  · exact absurd h (by simp)
theorem noNl_applyRules (line : List Char) (hline : '\n' ∉ line) :
    '\n' ∉ (applyRules line).1 := by
  unfold applyRules
  dsimp only
  have h1 : '\n' ∉ (match dupHeadRule line with
      | some nl => (nl, ["heading_duplicate_hashes"])
      | none => (line, ([] : List String))).1 := by
    cases hd : dupHeadRule line with
    | some nl => exact noNl_dupHeadRule hd hline
    | none => exact hline
  generalize (match dupHeadRule line with
      | some nl => (nl, ["heading_duplicate_hashes"])
      | none => (line, ([] : List String))) = r1 at h1 ⊢
  have h2 : '\n' ∉ (match capHeadRule r1.1 with
      | some nl => (nl, ["heading_cap_to_h6"])
      | none => (r1.1, ([] : List String))).1 := by
    cases hc : capHeadRule r1.1 with
    | some nl => exact noNl_capHeadRule hc h1
    | none => exact h1
  generalize (match capHeadRule r1.1 with
      | some nl => (nl, ["heading_cap_to_h6"])
      | none => (r1.1, ([] : List String))) = r2 at h2 ⊢
  have h3 : '\n' ∉ (match normHeadRule r2.1 with
      | some nl => (nl.1, if nl.2 then ["heading_space_normalize"] else [])
      | none => (r2.1, ([] : List String))).1 := by
    cases hn : normHeadRule r2.1 with
    | some nl => exact noNl_normHeadRule hn h2
    | none => exact h2
  generalize (match normHeadRule r2.1 with
      | some nl => (nl.1, if nl.2 then ["heading_space_normalize"] else [])
      | none => (r2.1, ([] : List String))) = r3 at h3 ⊢
  have h4 : '\n' ∉ (match listBulletRule r3.1 with
      | some nl => (nl.1, if nl.2 then ["list_bullet_space"] else [])
      | none => (r3.1, ([] : List String))).1 := by
    cases hb : listBulletRule r3.1 with
    | some nl => exact noNl_listBulletRule hb h3
    | none => exact h3
  generalize (match listBulletRule r3.1 with
      | some nl => (nl.1, if nl.2 then ["list_bullet_space"] else [])
      | none => (r3.1, ([] : List String))) = r4 at h4 ⊢
  cases ho : listOrderedRule r4.1 with
  | some nl => exact noNl_listOrderedRule ho h4
  | none => exact h4

theorem pass1Step_snd_of_none_false (st : Bool × Option Char × List FixStat) (line : List Char)
    (hf : fenceMatch line = none) (hin : st.1 = false) :
    (pass1Step st line).2 = (applyRules line).1 := by
  unfold pass1Step
  rw [hf, hin]
  generalize applyRules line = ar
  rfl

theorem pass1Step_snd_of_none_true (st : Bool × Option Char × List FixStat) (line : List Char)
    (hf : fenceMatch line = none) (hin : st.1 = true) :
    (pass1Step st line).2 = line := by
  unfold pass1Step
  rw [hf, hin]
  generalize applyRules line = ar
  rfl

theorem pass1Step_snd_of_some (st : Bool × Option Char × List FixStat) (line : List Char)
    (c : Char) (hf : fenceMatch line = some c) :
    (pass1Step st line).2 = line := by
  unfold pass1Step
  rw [hf]

theorem noNl_pass1Step (st : Bool × Option Char × List FixStat) (line : List Char)
    (hline : '\n' ∉ line) : '\n' ∉ (pass1Step st line).2 := by
  cases hf : fenceMatch line with
  | some c => rw [pass1Step_snd_of_some st line c hf]; exact hline
  | none =>
    cases hin : st.1 with
    | true => rw [pass1Step_snd_of_none_true st line hf hin]; exact hline
    | false =>
      rw [pass1Step_snd_of_none_false st line hf hin]
      exact noNl_applyRules line hline
theorem pass1_cons (st : Bool × Option Char × List FixStat) (line : List Char)
    (rest : List (List Char)) :
    pass1 st (line :: rest) =
      ((pass1Step st line).2 :: (pass1 (pass1Step st line).1 rest).1,
        (pass1 (pass1Step st line).1 rest).2) := by
  conv_lhs => unfold pass1

theorem pass1_length (ls : List (List Char)) :
    ∀ st : Bool × Option Char × List FixStat, (pass1 st ls).1.length = ls.length := by
  induction ls with
  | nil => intro st; rfl
  | cons line rest ih =>
    intro st
    rw [pass1_cons]
    simp only [List.length_cons]
    rw [ih]

theorem noNl_pass1 (ls : List (List Char)) :
    ∀ st : Bool × Option Char × List FixStat, (∀ l ∈ ls, '\n' ∉ l) →
      ∀ l' ∈ (pass1 st ls).1, '\n' ∉ l' := by
  induction ls with
  | nil => intro st _ l' hl'; simp [pass1] at hl'
  | cons line rest ih =>
    intro st hls l' hl'
    rw [pass1_cons] at hl'
    rcases List.mem_cons.mp hl' with h | h
    · subst h
      exact noNl_pass1Step st line (hls line (by simp))
    · exact ih _ (fun l hl => hls l (by simp [hl])) l' h

theorem pass2_cons (inF : Bool) (mk : Option Char) (acc : Nat) (line : List Char)
    (rest : List (List Char)) :
    pass2 inF mk acc (line :: rest) =
      (let fu := match fenceMatch line with
        | some c => fenceUpdate inF mk c
        | none => (inF, mk)
      if fu.1 then
        ((pass2 fu.1 fu.2 acc rest).1.cons line, (pass2 fu.1 fu.2 acc rest).2)
      else if endsWithTwoSpaces line then
        ((pass2 fu.1 fu.2 acc rest).1.cons line, (pass2 fu.1 fu.2 acc rest).2)
      else if trimTrailing line ≠ line then
        ((pass2 fu.1 fu.2 (acc + 1) rest).1.cons (trimTrailing line),
          (pass2 fu.1 fu.2 (acc + 1) rest).2)
      else
        ((pass2 fu.1 fu.2 acc rest).1.cons line, (pass2 fu.1 fu.2 acc rest).2)) := by
  conv_lhs => unfold pass2

theorem noNl_trimTrailing {line : List Char} (hline : '\n' ∉ line) :
    '\n' ∉ trimTrailing line := by
  intro h
  unfold trimTrailing at h
  rw [List.mem_reverse] at h
  have := mem_of_mem_dropWhile h
  rw [List.mem_reverse] at this
  exact hline this

theorem pass2_spec (ls : List (List Char)) :
    ∀ (inF : Bool) (mk : Option Char) (acc : Nat),
      (pass2 inF mk acc ls).1.length = ls.length ∧
      ((∀ l ∈ ls, '\n' ∉ l) → ∀ l' ∈ (pass2 inF mk acc ls).1, '\n' ∉ l') := by
  induction ls with
  | nil => intro inF mk acc; exact ⟨rfl, fun _ l' hl' => by simp [pass2] at hl'⟩
  | cons line rest ih =>
    intro inF mk acc
    rw [pass2_cons]
    by_cases h1 : (match fenceMatch line with
        | some c => fenceUpdate inF mk c
        | none => (inF, mk)).1 = true
    · simp only [h1, if_true]
      refine ⟨by simp [(ih _ _ _).1], ?_⟩
      intro hls l' hl'
      rcases List.mem_cons.mp hl' with h | h
      · rw [h]; exact hls line (by simp)
      · exact (ih _ _ _).2 (fun l hl => hls l (by simp [hl])) l' h
    · simp only [h1, Bool.false_eq_true, if_false]
      by_cases h2 : endsWithTwoSpaces line = true
      · simp only [h2, if_true]
        refine ⟨by simp [(ih _ _ _).1], ?_⟩
        intro hls l' hl'
        rcases List.mem_cons.mp hl' with h | h
        · rw [h]; exact hls line (by simp)
        · exact (ih _ _ _).2 (fun l hl => hls l (by simp [hl])) l' h
      · simp only [h2, Bool.false_eq_true, if_false]
        by_cases h3 : trimTrailing line ≠ line
        · rw [if_pos h3]
          refine ⟨by simp [(ih _ _ _).1], ?_⟩
          intro hls l' hl'
          rcases List.mem_cons.mp hl' with h | h
          · rw [h]; exact noNl_trimTrailing (hls line (by simp))
          · exact (ih _ _ _).2 (fun l hl => hls l (by simp [hl])) l' h
        · rw [if_neg h3]
          refine ⟨by simp [(ih _ _ _).1], ?_⟩
          intro hls l' hl'
          rcases List.mem_cons.mp hl' with h | h
          · rw [h]; exact hls line (by simp)
          · exact (ih _ _ _).2 (fun l hl => hls l (by simp [hl])) l' h
theorem splitNl_ne_nil (s : List Char) : splitNl s ≠ [] := by
  induction s with
  | nil => simp [splitNl]
  | cons c rest ih =>
    unfold splitNl
    by_cases hc : (c == '\n') = true
    · rw [if_pos hc]; simp
    · rw [if_neg hc]
      cases hsp : splitNl rest with
      | nil => exact absurd hsp ih
      | cons h t => simp

theorem noNl_splitNl (s : List Char) : ∀ p ∈ splitNl s, '\n' ∉ p := by
  induction s with
  | nil =>
    intro p hp
    simp [splitNl] at hp
    simp [hp]
  | cons c rest ih =>
    intro p hp
    unfold splitNl at hp
    by_cases hc : (c == '\n') = true
    · rw [if_pos hc] at hp
      rcases List.mem_cons.mp hp with h | h
      · simp [h]
      · exact ih p h
    · rw [if_neg hc] at hp
      cases hsp : splitNl rest with
      | nil => exact absurd hsp (splitNl_ne_nil rest)
      | cons hd t =>
        rw [hsp] at hp
        rcases List.mem_cons.mp hp with h | h
        · subst h
          intro hmem
          rcases List.mem_cons.mp hmem with h1 | h1
          · exact hc (by rw [← h1]; rfl)
          · exact ih hd (by rw [hsp]; exact List.mem_cons_self _ _) h1
        · exact ih p (by rw [hsp]; exact List.mem_cons_of_mem hd h)

theorem splitNl_no_nl {x : List Char} (hx : '\n' ∉ x) : splitNl x = [x] := by
  induction x with
  | nil => rfl
  | cons c x' ih =>
    have hc : (c == '\n') = false := by
      cases h : c == '\n' with
      | false => rfl
      | true => exact absurd (by simp [beq_iff_eq.mp h]) hx
    have hx' : '\n' ∉ x' := fun h => hx (by simp [h])
    unfold splitNl
    rw [if_neg (by simp [hc])]
    rw [ih hx']

theorem splitNl_append_nl {x : List Char} (s : List Char) (hx : '\n' ∉ x) :
    splitNl (x ++ '\n' :: s) = x :: splitNl s := by
  induction x with
  | nil =>
    show splitNl ('\n' :: s) = [] :: splitNl s
    simp only [splitNl]
    rw [if_pos (by rfl)]
  | cons c x' ih =>
    have hc : (c == '\n') = false := by
      cases h : c == '\n' with
      | false => rfl
      | true => exact absurd (by simp [beq_iff_eq.mp h]) hx
    have hx' : '\n' ∉ x' := fun h => hx (by simp [h])
    show splitNl (c :: (x' ++ '\n' :: s)) = (c :: x') :: splitNl s
    simp only [splitNl]
    rw [if_neg (by simp [hc])]
    rw [ih hx']

theorem splitNl_joinJS (ls : List (List Char)) (hne : ls ≠ [])
    (hnl : ∀ p ∈ ls, '\n' ∉ p) : splitNl (joinJS ['\n'] ls) = ls := by
  induction ls with
  | nil => exact absurd rfl hne
  | cons x t ih =>
    cases t with
    | nil =>
      show splitNl (joinJS ['\n'] [x]) = [x]
      exact splitNl_no_nl (hnl x (by simp))
    | cons y t' =>
      show splitNl (x ++ ['\n'] ++ joinJS ['\n'] (y :: t')) = x :: (y :: t')
      rw [List.append_assoc]
      rw [show (['\n'] ++ joinJS ['\n'] (y :: t') : List Char) =
        '\n' :: joinJS ['\n'] (y :: t') from rfl]
      rw [splitNl_append_nl _ (hnl x (by simp))]
      rw [ih (by simp) (fun p hp => hnl p (by simp [hp]))]

/-- C10 (confirmed): the Markdown normalizer preserves the number of
lines — the output text, split on line breaks, has exactly as many lines
as the input, since both passes rewrite lines in place and no rule
inserts or deletes a line-break character. -/
theorem markdown_preserves_line_count (text : List Char) :
    (splitNl (fixMarkdownFormatting text).1).length = (splitNl text).length := by
  have h0 : (fixMarkdownFormatting text).1 =
      joinJS ['\n'] (pass2 false none 0 (pass1 (false, none, []) (splitNl text)).1).1 := by
    conv_lhs => unfold fixMarkdownFormatting
  rw [h0]
  have hnl : ∀ l ∈ splitNl text, '\n' ∉ l := noNl_splitNl text
  have h1 := noNl_pass1 (splitNl text) (false, none, []) hnl
  have hlen1 : (pass1 (false, none, []) (splitNl text)).1.length = (splitNl text).length :=
    pass1_length (splitNl text) _
  have h2 := pass2_spec (pass1 (false, none, []) (splitNl text)).1 false none 0
  have hlen2 := h2.1
  have hnl2 := h2.2 h1
  have hne : (pass2 false none 0 (pass1 (false, none, []) (splitNl text)).1).1 ≠ [] := by
    intro hcon
    have hlen0 : (splitNl text).length = 0 := by rw [← hlen1, ← hlen2, hcon]; rfl
    exact splitNl_ne_nil text (List.length_eq_zero.mp hlen0)
  rw [splitNl_joinJS _ hne hnl2]
  rw [hlen2, hlen1]
